import Mathlib

/-! # addressContactBook: the storage and indexing layer of `main.cpp`

A shallow embedding of `TrieNode`, `Contact` and `AddressBook` from
`src/addressContactBook/main.cpp`, followed by theorems about them.

Modelling conventions.

* A C++ `char` is a `Byte` (a natural number below 256) and a `std::string` is a
  `List Byte`; its `length()` is the length of the list.
* `int` is a 32-bit two's complement integer: `static_cast<int>` is `toInt32`, and the
  four bytes of an `int` in memory are `le32` (little-endian).  `long` offsets are
  unbounded integers (a file is far shorter than `2^63` bytes).
* The file named `filename` is a `List Byte`: what a second handle on the file sees.  The
  stream `storage` keeps written bytes in its buffer as the GNU C++ library does: `write`
  buffers fewer than 1024 bytes, `tellp` flushes nothing, and the buffer reaches the file
  at the next `seekp` or at `close()`.
* Storage that C++ leaves uninitialised (`int length;`, `new char[length + 1]`) takes its
  content from a parameter of type `Uninit`.
* The `"C"` locale is in force: white space is the bytes 9 to 13 and 32, and `tolower`
  changes only the letters `A` to `Z`.
-/

namespace AddressContactBook

/-- One C++ `char`, as its value in `0 .. 255`. -/
abbrev Byte := Nat

/-- The bytes of an ASCII string literal. -/
def ascii (s : String) : List Byte := s.toList.map Char.toNat

/-! ## Machine integers -/

/-- Conversion of a `size_t` to `int` (`static_cast<int>`): reduction modulo `2^32` into
the signed range. -/
def toInt32 (n : Nat) : Int :=
  if n % 2 ^ 32 < 2 ^ 31 then ((n % 2 ^ 32 : Nat) : Int) else ((n % 2 ^ 32 : Nat) : Int) - 2 ^ 32

/-- The four bytes of an `int` in memory, least significant first. -/
def le32 (i : Int) : List Byte :=
  let u := (i % 2 ^ 32).toNat
  [u % 256, u / 256 % 256, u / 65536 % 256, u / 16777216 % 256]

/-- The `int` whose memory holds the given four bytes. -/
def fromLe32 (bs : List Byte) : Int :=
  toInt32 (bs.getD 0 0 + 256 * bs.getD 1 0 + 65536 * bs.getD 2 0 + 16777216 * bs.getD 3 0)

/-! ## TrieNode -/

/-- A `TrieNode`: the `children` map as an association list, and the stored `offset`. -/
inductive TrieNode where
  | mk (children : List (Byte × TrieNode)) (offset : Int)

namespace TrieNode

/-- The constructor `TrieNode() : offset(-1) {}`. -/
def new : TrieNode := .mk [] (-1)

/-- The member `children`. -/
def children : TrieNode → List (Byte × TrieNode)
  | .mk ch _ => ch

/-- The member `offset`. -/
def offset : TrieNode → Int
  | .mk _ off => off

end TrieNode

/-- `children.find(c)`: the child stored under `c`, if any. -/
def childFind (c : Byte) : List (Byte × TrieNode) → Option TrieNode
  | [] => none
  | (k, n) :: rest => if k = c then some n else childFind c rest

/-- `children[c] = node`: the map with the entry for `c` replaced or added. -/
def childSet (c : Byte) (node : TrieNode) : List (Byte × TrieNode) → List (Byte × TrieNode)
  | [] => [(c, node)]
  | (k, n) :: rest => if k = c then (k, node) :: rest else (k, n) :: childSet c node rest

/-! ## Contact and its stream operators -/

/-- A `Contact`. -/
structure Contact where
  firstName : List Byte
  lastName : List Byte
  address : List Byte
  phoneNumber : List Byte
  deriving DecidableEq, Repr

/-- The result `Contact("", "", "", "")`. -/
def Contact.empty : Contact := ⟨[], [], [], []⟩

/-- `operator<<` on a fresh `std::ostringstream`, followed by `oss.str()`. -/
def encode (contact : Contact) : List Byte :=
  contact.firstName ++ [44] ++ contact.lastName ++ [44] ++ contact.address ++ [44]
    ++ contact.phoneNumber

/-- White space of the `"C"` locale, as skipped by `std::ws`. -/
def isSpace (c : Byte) : Bool := c == 32 || (decide (9 ≤ c) && decide (c ≤ 13))

/-- The state of a `std::istringstream`: the characters not yet extracted and the state
bits `eofbit` and `failbit`. -/
structure IStream where
  rest : List Byte
  eof : Bool
  fail : Bool
  deriving DecidableEq, Repr

/-- `std::istringstream iss(s)`. -/
def IStream.ofString (s : List Byte) : IStream := ⟨s, false, false⟩

/-- The member `good()`. -/
def IStream.good (s : IStream) : Bool := !s.eof && !s.fail

/-- `is >> std::ws`: on a good stream white space is extracted up to the first other
character, and `eofbit` is set when the characters run out; a stream that is not good gets
`failbit`. -/
def ws (s : IStream) : IStream :=
  if s.good then
    let r := s.rest.dropWhile isSpace
    { rest := r, eof := r.isEmpty, fail := false }
  else { s with fail := true }

/-- `std::getline(is, str, delim)`, where `old` is the value of `str` before the call.  On a
good stream the characters up to the delimiter are stored and the delimiter is extracted and
dropped; when the characters run out first, `eofbit` is set, and `failbit` too when nothing
was extracted.  A stream that is not good gets `failbit` and `str` is left as it was. -/
def getline (s : IStream) (delim : Byte) (old : List Byte) : List Byte × IStream :=
  if s.good then
    let field := s.rest.takeWhile (fun c => c != delim)
    match s.rest.dropWhile (fun c => c != delim) with
    | [] => (field, { rest := [], eof := true, fail := s.rest.isEmpty })
    | _ :: r => (field, { rest := r, eof := false, fail := false })
  else (old, { s with fail := true })

/-- `operator>>` of `Contact`: four `getline` calls, each after `std::ws`, the first three
with delimiter `','` and the last with the default delimiter `'\n'`. -/
def extract (is : IStream) (contact : Contact) : IStream × Contact :=
  let r1 := getline (ws is) 44 contact.firstName
  let r2 := getline (ws r1.2) 44 contact.lastName
  let r3 := getline (ws r2.2) 44 contact.address
  let r4 := getline (ws r3.2) 10 contact.phoneNumber
  (r4.2, ⟨r1.1, r2.1, r3.1, r4.1⟩)

/-- The codec's decoder: `iss >> contact` on `std::istringstream iss(s)` and
`Contact contact("", "", "", "")`. -/
def decode (s : List Byte) : Contact := (extract (IStream.ofString s) Contact.empty).2

/-! ## Trie operations -/

/-- `AddressBook::insertIntoTrie`: one step per character of `key`, creating the child when
`children.find(c)` misses, and `current->offset = offset` at the node reached. -/
def insertIntoTrie : TrieNode → List Byte → Int → TrieNode
  | .mk ch _, [], offset => .mk ch offset
  | .mk ch off, c :: key, offset =>
    match childFind c ch with
    | none => .mk (childSet c (insertIntoTrie TrieNode.new key offset) ch) off
    | some child => .mk (childSet c (insertIntoTrie child key offset) ch) off

/-- `AddressBook::searchInTrie`: one step per character of `key`, `-1` as soon as a child is
missing, and otherwise the `offset` of the node reached. -/
def searchInTrie : TrieNode → List Byte → Int
  | .mk _ off, [] => off
  | .mk ch _, c :: key =>
    match childFind c ch with
    | none => -1
    | some child => searchInTrie child key

/-! ## The file streams -/

/-- The effect on a file of writing `bytes` at position `pos`: the bytes replace what was
there, the file grows as needed, and a gap between the old end and `pos` reads as zeros.
Writing nothing leaves the file as it is. -/
def writeAt (file : List Byte) (pos : Nat) (bytes : List Byte) : List Byte :=
  if bytes.isEmpty then file
  else file.take pos ++ List.replicate (pos - file.length) 0 ++ bytes
    ++ file.drop (pos + bytes.length)

/-- The member `storage`, a `std::fstream` on the file named `filename`: the content of
that file as another handle sees it, whether the stream is open, whether `fail()` holds
(`failbit` or `badbit`), the position of the file behind the buffer, and the bytes that
were written to the stream and are still in its buffer (`pending`); they belong at
position `pos` of the file. -/
structure FStream where
  file : List Byte
  isOpen : Bool
  fail : Bool
  pos : Nat
  pending : List Byte
  deriving DecidableEq, Repr

namespace FStream

/-- Capacity of the put area of the file buffer (`BUFSIZ - 1`). -/
def bufferSize : Nat := 8191

/-- Size from which `write` bypasses the buffer (`__chunk` in `xsputn`). -/
def chunk : Nat := 1024

/-- The buffered bytes are written to the file at `pos` (`_M_terminate_output`). -/
def flush (s : FStream) : FStream :=
  { s with file := writeAt s.file s.pos s.pending, pos := s.pos + s.pending.length,
           pending := [] }

/-- `seekp(off, beg)` and `seekg(off, beg)`: nothing on a failed stream and `failbit` on a
closed one; otherwise the buffer is flushed and the position is set, with `failbit` when
`off` is negative. -/
def seek (s : FStream) (off : Int) : FStream :=
  if s.fail then s
  else if !s.isOpen then { s with fail := true }
  else if 0 ≤ off then { s.flush with pos := off.toNat }
  else { s.flush with fail := true }

/-- `seekg(0, end)`: as `seek`, to the end of the file. -/
def seekEnd (s : FStream) : FStream :=
  if s.fail then s
  else if !s.isOpen then { s with fail := true }
  else { s.flush with pos := s.flush.file.length }

/-- `tellp()` and `tellg()`: `-1` on a failed or closed stream, otherwise the position,
which counts the buffered bytes; nothing is flushed. -/
def tell (s : FStream) : Int :=
  if s.fail || !s.isOpen then -1 else ((s.pos + s.pending.length : Nat) : Int)

/-- `write(src, n)` on a good open stream with `0 ≤ n`: the first `n` bytes of `src` are
put into the buffer when `n` is below `chunk` and below the room left in the buffer;
otherwise the buffered bytes and these bytes are written to the file at once.  A negative
`n` inserts nothing and sets `badbit`, and so does a closed stream; a failed stream stays
failed. -/
def write (s : FStream) (src : List Byte) (n : Int) : FStream :=
  if s.fail || !s.isOpen then { s with fail := true }
  else if n < 0 then { s with fail := true }
  else if min chunk (bufferSize - s.pending.length) ≤ n.toNat then
    { s with file := writeAt s.file s.pos (s.pending ++ src.take n.toNat),
             pos := s.pos + (s.pending ++ src.take n.toNat).length,
             pending := [] }
  else { s with pending := s.pending ++ src.take n.toNat }

/-- `read(dst, n)` for `0 ≤ n` on a stream that has written nothing: the bytes obtained (at
most `n`, fewer at the end of the file) and the stream after the call; a short read sets
`eofbit` and `failbit`, and a stream that is not good yields nothing. -/
def read (s : FStream) (n : Nat) : List Byte × FStream :=
  if s.fail || !s.isOpen then ([], { s with fail := true })
  else
    let got := (s.file.drop s.pos).take n
    (got, { s with pos := s.pos + got.length, fail := decide (got.length < n) })

/-- `close()`: an open stream flushes its buffer, whatever its state bits, and is closed;
a stream that is not open gets `failbit`. -/
def close (s : FStream) : FStream :=
  if s.isOpen then { s.flush with isOpen := false } else { s with fail := true }

end FStream

/-- Content of the storage that `readContact` uses before initialising it: the four bytes
of `int length` and the array returned by `new char[length + 1]`. -/
structure Uninit where
  lengthBytes : List Byte
  heap : List Byte
  deriving DecidableEq, Repr

/-- A buffer of `n` bytes after a read that delivered `got`: the bytes read, followed by
what the buffer held before (`junk`, zero where `junk` is too short). -/
def overlay (got junk : List Byte) (n : Nat) : List Byte :=
  (List.range n).map fun i => (got.get? i).getD (junk.getD i 0)

/-- `std::string(const char*)`: the bytes before the first zero byte. -/
def cString (data : List Byte) : List Byte := data.takeWhile (fun b => b != 0)

/-- How a call that reads a record can end without a `Contact`: `new char[length + 1]`
throws for a negative size, and the behaviour is undefined when `length + 1` overflows or
`data[length]` is outside the array. -/
inductive ReadFault where
  | badAlloc
  | undefinedBehaviour
  deriving DecidableEq, Repr

/-- Equality of read results is decidable. -/
instance : DecidableEq (Except ReadFault Contact) := fun a b =>
  match a, b with
  | .ok x, .ok y =>
    if h : x = y then isTrue (by rw [h]) else isFalse (fun e => h (Except.ok.inj e))
  | .error x, .error y =>
    if h : x = y then isTrue (by rw [h]) else isFalse (fun e => h (Except.error.inj e))
  | .ok _, .error _ => isFalse (fun e => Except.noConfusion e)
  | .error _, .ok _ => isFalse (fun e => Except.noConfusion e)

/-! ## AddressBook -/

/-- The members of `AddressBook` (`filename` is fixed; its file is `storage.file`, which
is what the handle opened by `readContact` sees). -/
structure AddressBook where
  storage : FStream
  nextOffset : Int
  phoneIndexRoot : TrieNode
  nameIndexRoot : TrieNode

namespace AddressBook

/-- The constructor `AddressBook(filename)`, run when the file `filename` holds `disk`
(`none`: there is no such file).  An existing file is opened for reading and writing and
keeps its content; otherwise the second `open` creates an empty file.  `nextOffset` is
the position of the end of the file, and both tries are fresh roots. -/
def construct (disk : Option (List Byte)) : AddressBook :=
  let storage : FStream := ⟨disk.getD [], true, false, 0, []⟩
  let atEnd := storage.seekEnd
  { storage := atEnd.seek 0,
    nextOffset := atEnd.tell,
    phoneIndexRoot := TrieNode.new,
    nameIndexRoot := TrieNode.new }

/-- `AddressBook::writeContact`: the returned offset and the store after the call.  Nothing
here flushes the stream: the bytes of a short record stay in the buffer until the `seekp` of
the next call or `close()`. -/
def writeContact (ab : AddressBook) (contact : Contact) : Int × AddressBook :=
  let offset := ab.nextOffset
  let s0 := ab.storage.seek offset
  let data := encode contact
  let length := toInt32 data.length
  let s1 := s0.write (le32 length) 4
  let s2 := s1.write (data ++ [0]) length
  (offset, { ab with storage := s2, nextOffset := s2.tell })

/-- `AddressBook::readContact` on the file `file`: a fresh stream `fileCopy`, `seekg`, the
read of `length`, the allocation of `data`, the read of the payload, the conversion to a
`std::string` and `iss >> contact`. -/
def readContact (mem : Uninit) (file : List Byte) (offset : Int) : Except ReadFault Contact :=
  let fileCopy : FStream := ⟨file, true, false, 0, []⟩
  let f0 := fileCopy.seek offset
  let r1 := f0.read 4
  let length := fromLe32 (overlay r1.1 mem.lengthBytes 4)
  if length = 2 ^ 31 - 1 ∨ length = -1 then .error .undefinedBehaviour
  else if length < 0 then .error .badAlloc
  else
    let r2 := r1.2.read length.toNat
    let data := overlay r2.1 mem.heap length.toNat ++ [0]
    .ok (decode (cString data))

/-- `AddressBook::addContact`. -/
def addContact (ab : AddressBook) (contact : Contact) : AddressBook :=
  let w := writeContact ab contact
  let ab1 := { w.2 with
    phoneIndexRoot := insertIntoTrie w.2.phoneIndexRoot contact.phoneNumber w.1 }
  { ab1 with
    nameIndexRoot :=
      insertIntoTrie ab1.nameIndexRoot (contact.firstName ++ [32] ++ contact.lastName) w.1 }

/-- `AddressBook::searchByPhoneNumber`. -/
def searchByPhoneNumber (mem : Uninit) (ab : AddressBook) (phoneNumber : List Byte) :
    Except ReadFault Contact :=
  let offset := searchInTrie ab.phoneIndexRoot phoneNumber
  if offset ≠ -1 then readContact mem ab.storage.file offset else .ok Contact.empty

/-- `::tolower` on one `char`. -/
def tolower (c : Byte) : Byte := if 65 ≤ c ∧ c ≤ 90 then c + 32 else c

/-- `AddressBook::toLowerCase`. -/
def toLowerCase (str : List Byte) : List Byte := str.map tolower

/-- `AddressBook::searchByName`. -/
def searchByName (mem : Uninit) (ab : AddressBook) (name : List Byte) :
    Except ReadFault Contact :=
  let lowercaseName := toLowerCase name
  let offset := searchInTrie ab.nameIndexRoot lowercaseName
  if offset ≠ -1 then readContact mem ab.storage.file offset else .ok Contact.empty

/-- `AddressBook::close`. -/
def close (ab : AddressBook) : AddressBook := { ab with storage := ab.storage.close }

/-- A run of `addContact` calls, in the order of the list. -/
def addAll (ab : AddressBook) (contacts : List Contact) : AddressBook :=
  contacts.foldl addContact ab

end AddressBook

open AddressBook

/-! ## Vocabulary of the statements -/

/-- Whether the string starts with a white-space character. -/
def startsWithSpace : List Byte → Bool
  | [] => false
  | b :: _ => isSpace b

/-- The string without its leading white space. -/
def strip (s : List Byte) : List Byte := s.dropWhile isSpace

/-- The log: the bytes of the file followed by the bytes that are still in the buffer of
`storage`, that is, everything written through the stream so far. -/
def logOf (ab : AddressBook) : List Byte := ab.storage.file ++ ab.storage.pending

/-- A stream that is open and whose buffered bytes, if any, belong at the end of the
file. -/
def Tidy (s : FStream) : Prop :=
  s.isOpen = true ∧ (s.pending = [] ∨ s.pos = s.file.length)

/-- A store whose stream is tidy and has not failed and whose `nextOffset` is the length of
the log: the state after the constructor and after every add that fits an `int`. -/
def Healthy (ab : AddressBook) : Prop :=
  Tidy ab.storage ∧ ab.storage.fail = false ∧ ab.nextOffset = ((logOf ab).length : Int)

/-- The stored record of a contact, in the words of the file layout: the four bytes of the
payload length, then the payload. -/
def storedRecord (c : Contact) : List Byte :=
  le32 ((encode c).length : Int) ++ encode c

/-- The file layout in the words of the specification: the stored records of the contacts,
one after the other in write order, and nothing else. -/
def fileLayout : List Contact → List Byte
  | [] => []
  | c :: cs => storedRecord c ++ fileLayout cs

/-- The sum of `4 + payload length` over the contacts. -/
def layoutLength : List Contact → Nat
  | [] => 0
  | c :: cs => 4 + (encode c).length + layoutLength cs

/-- A first name of `2^31` letters `a`. -/
def longName : List Byte := List.replicate (2 ^ 31) 97

/-- A contact whose payload is longer than the largest `int`. -/
def longContact : Contact := ⟨longName, [], [], []⟩

/-- An upper-case ASCII letter, `A` to `Z`. -/
def isUpper (c : Byte) : Bool := decide (65 ≤ c) && decide (c ≤ 90)

/-- The key under which `addContact` puts a contact into the name index:
`contact.firstName + " " + contact.lastName`. -/
def nameKey (c : Contact) : List Byte := c.firstName ++ [32] ++ c.lastName

/-- The stored record of `c` starts at offset `v` of the bytes `file`, which may be those
of the file or those of the log. -/
def RecordAt (file : List Byte) (v : Int) (c : Contact) : Prop :=
  ∃ pre post, file = pre ++ storedRecord c ++ post ∧ (pre.length : Int) = v

/-- Consistency of one index with the bytes `file`: every offset other than `-1` found
under a key is at least `start`, below `next`, and the start, in `file`, of the stored
record of one of the contacts `cs` that has this key. -/
def IndexConsistent (key : Contact → List Byte) (start : Nat) (cs : List Contact)
    (root : TrieNode) (file : List Byte) (next : Int) : Prop :=
  ∀ k, searchInTrie root k ≠ -1 →
    (start : Int) ≤ searchInTrie root k ∧ searchInTrie root k < next ∧
      ∃ c ∈ cs, key c = k ∧ RecordAt file (searchInTrie root k) c

/-- A store as adds leave it: the stream is tidy, and it has failed or `nextOffset` is the
length of the log. -/
def Sound (ab : AddressBook) : Prop :=
  Tidy ab.storage ∧ (ab.storage.fail = true ∨ ab.nextOffset = ((logOf ab).length : Int))

/-- A first name of more than `1024` bytes with a zero byte in second place. -/
def zeroName : List Byte := 97 :: 0 :: List.replicate 1100 98

/-- A contact with a zero byte whose payload is longer than `1024` bytes. -/
def zeroContact : Contact := ⟨zeroName, [108], [100], [49]⟩

/-! # Theorems -/

/-! ## The codec -/

theorem dropWhile_append_stop (p : Byte → Bool) (s r : List Byte) (x : Byte) (hx : p x = false) :
    (s ++ x :: r).dropWhile p = s.dropWhile p ++ x :: r := by
  induction s with
  | nil => simp [List.dropWhile, hx]
  | cons a s ih =>
    by_cases ha : p a = true
    · simp [List.dropWhile, ha, ih]
    · simp [List.dropWhile, ha]

theorem takeWhile_ne_append (d : Byte) (t r : List Byte) (h : d ∉ t) :
    (t ++ d :: r).takeWhile (fun c => c != d) = t := by
  induction t with
  | nil => simp [List.takeWhile]
  | cons a t ih =>
    have ha : (a != d) = true := by
      simp only [bne_iff_ne, ne_eq]
      exact fun e => h (by simp [e])
    have ht : d ∉ t := fun e => h (by simp [e])
    simp only [List.cons_append, List.takeWhile_cons, ha, if_true, ih ht]

theorem dropWhile_ne_append (d : Byte) (t r : List Byte) (h : d ∉ t) :
    (t ++ d :: r).dropWhile (fun c => c != d) = d :: r := by
  induction t with
  | nil => simp [List.dropWhile]
  | cons a t ih =>
    have ha : (a != d) = true := by
      simp only [bne_iff_ne, ne_eq]
      exact fun e => h (by simp [e])
    have ht : d ∉ t := fun e => h (by simp [e])
    simp only [List.cons_append, List.dropWhile_cons, ha, if_true, ih ht]

theorem takeWhile_ne_self (d : Byte) (t : List Byte) (h : d ∉ t) :
    t.takeWhile (fun c => c != d) = t := by
  induction t with
  | nil => rfl
  | cons a t ih =>
    have ha : (a != d) = true := by
      simp only [bne_iff_ne, ne_eq]
      exact fun e => h (by simp [e])
    have ht : d ∉ t := fun e => h (by simp [e])
    simp only [List.cons_append, List.takeWhile_cons, ha, if_true, ih ht]

theorem not_mem_strip (d : Byte) (s : List Byte) (h : d ∉ s) : d ∉ strip s :=
  fun e => h ((List.dropWhile_sublist isSpace).subset e)

theorem strip_of_not_startsWithSpace (s : List Byte) (h : startsWithSpace s = false) :
    strip s = s := by
  cases s with
  | nil => rfl
  | cons a s => simp [startsWithSpace] at h; simp [strip, List.dropWhile, h]

/-- One field read by `getline` after `std::ws`, when the delimiter is present. -/
theorem getline_ws_field (s r old : List Byte) (h : 44 ∉ s) :
    getline (ws ⟨s ++ 44 :: r, false, false⟩) 44 old = (strip s, ⟨r, false, false⟩) := by
  have h1 : (s ++ 44 :: r).dropWhile isSpace = strip s ++ 44 :: r :=
    dropWhile_append_stop isSpace s r 44 (by decide)
  have h2 := not_mem_strip 44 s h
  simp [ws, getline, IStream.good, h1, takeWhile_ne_append 44 _ r h2,
    dropWhile_ne_append 44 _ r h2]

/-- The last field read by `getline` after `std::ws`. -/
theorem getline_ws_last (r : List Byte) :
    (getline (ws ⟨r, false, false⟩) 10 []).1 = (strip r).takeWhile (fun c => c != 10) := by
  cases hr : strip r with
  | nil =>
    have hr2 : r.dropWhile isSpace = [] := hr
    simp [ws, getline, IStream.good, hr2]
  | cons a t =>
    have hr2 : r.dropWhile isSpace = a :: t := hr
    simp only [ws, getline, IStream.good, hr2]
    simp
    split <;> simp

/-- Decoding a payload with three commas in front of the last field. -/
theorem decode_fields (s1 s2 s3 r : List Byte) (h1 : 44 ∉ s1) (h2 : 44 ∉ s2) (h3 : 44 ∉ s3) :
    decode (s1 ++ [44] ++ s2 ++ [44] ++ s3 ++ [44] ++ r)
      = ⟨strip s1, strip s2, strip s3, (strip r).takeWhile (fun c => c != 10)⟩ := by
  have e : s1 ++ [44] ++ s2 ++ [44] ++ s3 ++ [44] ++ r
      = s1 ++ 44 :: (s2 ++ 44 :: (s3 ++ 44 :: r)) := by simp
  rw [e]
  simp only [decode, extract, IStream.ofString, Contact.empty]
  rw [getline_ws_field s1 _ _ h1]
  simp only []
  rw [getline_ws_field s2 _ _ h2]
  simp only []
  rw [getline_ws_field s3 _ _ h3]
  simp only []
  rw [getline_ws_last]

theorem length_strip_lt (s : List Byte) (h : startsWithSpace s = true) :
    (strip s).length < s.length := by
  cases s with
  | nil => simp [startsWithSpace] at h
  | cons a t =>
    simp only [startsWithSpace] at h
    have := (List.dropWhile_sublist isSpace (l := t)).length_le
    simp only [strip, List.dropWhile_cons, h, if_true, List.length_cons]
    omega

theorem takeWhile_strip_eq_iff (s : List Byte) :
    (strip s).takeWhile (fun c => c != 10) = s ↔ 10 ∉ s ∧ startsWithSpace s = false := by
  constructor
  · intro h
    have hs : startsWithSpace s = false := by
      by_contra hc
      have hc2 : startsWithSpace s = true := by simpa using hc
      have h1 := length_strip_lt s hc2
      have h2 := (List.takeWhile_sublist (fun c => c != 10) (l := strip s)).length_le
      rw [h] at h2
      omega
    refine ⟨?_, hs⟩
    rw [strip_of_not_startsWithSpace s hs] at h
    intro hm
    rw [← h] at hm
    have := List.mem_takeWhile_imp hm
    simp at this
  · rintro ⟨h1, h2⟩
    rw [strip_of_not_startsWithSpace s h2, takeWhile_ne_self 10 s h1]

theorem decode_encode (c : Contact) (h1 : 44 ∉ c.firstName) (h2 : 44 ∉ c.lastName)
    (h3 : 44 ∉ c.address) :
    decode (encode c) = ⟨strip c.firstName, strip c.lastName, strip c.address,
      (strip c.phoneNumber).takeWhile (fun b => b != 10)⟩ := by
  unfold encode
  exact decode_fields _ _ _ _ h1 h2 h3

theorem split_comma (l : List Byte) (h : 0 < l.count 44) :
    ∃ a r, l = a ++ 44 :: r ∧ 44 ∉ a ∧ r.count 44 + 1 = l.count 44 := by
  induction l with
  | nil => simp at h
  | cons x l ih =>
    by_cases hx : x = 44
    · subst hx
      exact ⟨[], l, by simp, by simp, by simp⟩
    · have hc : (x :: l).count 44 = l.count 44 := by
        simp [List.count_cons, hx]
      rw [hc] at h
      obtain ⟨a, r, e, ha, hr⟩ := ih h
      refine ⟨x :: a, r, by simp [e], ?_, by rw [hc]; exact hr⟩
      simp only [List.mem_cons, not_or]
      exact ⟨fun e => hx e.symm, ha⟩

/-- C2, as stated, fails: a contact whose first three fields meet the conditions and whose
phone number starts with a blank is not reproduced by the codec. -/
theorem roundtrip_free_phone_counterexample :
    (44 ∉ ascii "a" ∧ 10 ∉ ascii "a" ∧ startsWithSpace (ascii "a") = false) ∧
    (44 ∉ ascii "b" ∧ 10 ∉ ascii "b" ∧ startsWithSpace (ascii "b") = false) ∧
    (44 ∉ ascii "c" ∧ 10 ∉ ascii "c" ∧ startsWithSpace (ascii "c") = false) ∧
    decode (encode ⟨ascii "a", ascii "b", ascii "c", ascii " 1"⟩)
      = ⟨ascii "a", ascii "b", ascii "c", ascii "1"⟩ ∧
    decode (encode ⟨ascii "a", ascii "b", ascii "c", ascii " 1"⟩)
      ≠ ⟨ascii "a", ascii "b", ascii "c", ascii " 1"⟩ := by
  decide

/-- C2, amended: for a contact whose firstName, lastName and address contain no comma, no
newline and no leading white space, decoding the encoding gives the contact back exactly
when its phoneNumber contains no newline and does not start with white space. -/
theorem roundtrip_iff_phone (c : Contact)
    (hf : 44 ∉ c.firstName ∧ 10 ∉ c.firstName ∧ startsWithSpace c.firstName = false)
    (hl : 44 ∉ c.lastName ∧ 10 ∉ c.lastName ∧ startsWithSpace c.lastName = false)
    (ha : 44 ∉ c.address ∧ 10 ∉ c.address ∧ startsWithSpace c.address = false) :
    decode (encode c) = c ↔
      (10 ∉ c.phoneNumber ∧ startsWithSpace c.phoneNumber = false) := by
  rw [decode_encode c hf.1 hl.1 ha.1, strip_of_not_startsWithSpace _ hf.2.2,
    strip_of_not_startsWithSpace _ hl.2.2, strip_of_not_startsWithSpace _ ha.2.2,
    ← takeWhile_strip_eq_iff]
  cases c
  simp

/-- Witness of `roundtrip_iff_phone`: the second contact of `main`. -/
theorem roundtrip_iff_phone_witness :
    decode (encode ⟨ascii "first", ascii "last", ascii "test address ", ascii "1234567890"⟩)
        = ⟨ascii "first", ascii "last", ascii "test address ", ascii "1234567890"⟩ ↔
      (10 ∉ ascii "1234567890" ∧ startsWithSpace (ascii "1234567890") = false) :=
  roundtrip_iff_phone ⟨ascii "first", ascii "last", ascii "test address ", ascii "1234567890"⟩
    (by decide) (by decide) (by decide)

/-- C3: a contact whose firstName, lastName and address contain no comma and no newline,
whose phoneNumber contains no newline (commas are allowed), and none of whose fields starts
with white space, is reproduced by the codec; the commas of phoneNumber stay in
phoneNumber. -/
theorem roundtrip_phone_commas (c : Contact)
    (hf : 44 ∉ c.firstName ∧ 10 ∉ c.firstName) (hl : 44 ∉ c.lastName ∧ 10 ∉ c.lastName)
    (ha : 44 ∉ c.address ∧ 10 ∉ c.address) (hp : 10 ∉ c.phoneNumber)
    (hs : startsWithSpace c.firstName = false ∧ startsWithSpace c.lastName = false ∧
      startsWithSpace c.address = false ∧ startsWithSpace c.phoneNumber = false) :
    decode (encode c) = c := by
  rw [decode_encode c hf.1 hl.1 ha.1, strip_of_not_startsWithSpace _ hs.1,
    strip_of_not_startsWithSpace _ hs.2.1, strip_of_not_startsWithSpace _ hs.2.2.1,
    strip_of_not_startsWithSpace _ hs.2.2.2, takeWhile_ne_self 10 _ hp]

/-- Witness of `roundtrip_phone_commas`: a phone number with two commas. -/
theorem roundtrip_phone_commas_witness :
    decode (encode ⟨ascii "Ann", ascii "Lee", ascii "1 Main St", ascii "555,12,34"⟩)
      = ⟨ascii "Ann", ascii "Lee", ascii "1 Main St", ascii "555,12,34"⟩ :=
  roundtrip_phone_commas ⟨ascii "Ann", ascii "Lee", ascii "1 Main St", ascii "555,12,34"⟩
    (by decide) (by decide) (by decide) (by decide) (by decide)

/-- C10: a payload with at least three commas splits into three comma-free parts, each
followed by a comma, and a remainder; for every such split `decode` returns the three parts
without their leading white space as firstName, lastName and address, and as phoneNumber
the remainder, further commas included, without its leading white space and cut at its
first newline. -/
theorem decode_splits_first_three (p : List Byte) (h : 3 ≤ p.count 44) :
    (∃ s1 s2 s3 r, p = s1 ++ [44] ++ s2 ++ [44] ++ s3 ++ [44] ++ r ∧
      44 ∉ s1 ∧ 44 ∉ s2 ∧ 44 ∉ s3) ∧
    ∀ s1 s2 s3 r, p = s1 ++ [44] ++ s2 ++ [44] ++ s3 ++ [44] ++ r →
      44 ∉ s1 → 44 ∉ s2 → 44 ∉ s3 →
      decode p = ⟨strip s1, strip s2, strip s3, (strip r).takeWhile (fun b => b != 10)⟩ := by
  constructor
  · obtain ⟨s1, r1, e1, h1, n1⟩ := split_comma p (by omega)
    obtain ⟨s2, r2, e2, h2, n2⟩ := split_comma r1 (by omega)
    obtain ⟨s3, r3, e3, h3, _⟩ := split_comma r2 (by omega)
    refine ⟨s1, s2, s3, r3, ?_, h1, h2, h3⟩
    rw [e1, e2, e3]; simp
  · intro s1 s2 s3 r e h1 h2 h3
    rw [e]
    exact decode_fields s1 s2 s3 r h1 h2 h3

/-- Witness of `decode_splits_first_three`: a payload with four commas, white space in
front of fields and two newlines after the third comma. -/
theorem decode_splits_first_three_witness :
    3 ≤ (ascii " a,b, c,\n1,2\n3").count 44 ∧
    decode (ascii " a,b, c,\n1,2\n3") = ⟨strip (ascii " a"), strip (ascii "b"),
      strip (ascii " c"), (strip (ascii "\n1,2\n3")).takeWhile (fun b => b != 10)⟩ :=
  ⟨by decide,
    (decode_splits_first_three (ascii " a,b, c,\n1,2\n3") (by decide)).2
      (ascii " a") (ascii "b") (ascii " c") (ascii "\n1,2\n3")
      (by decide) (by decide) (by decide) (by decide)⟩

/-! ## The tries -/

theorem childFind_childSet_same (c : Byte) (n : TrieNode) (ch : List (Byte × TrieNode)) :
    childFind c (childSet c n ch) = some n := by
  induction ch with
  | nil => simp [childSet, childFind]
  | cons x ch ih =>
    obtain ⟨k, m⟩ := x
    by_cases hk : k = c
    · simp [childSet, childFind, hk]
    · simp [childSet, childFind, hk, ih]

theorem childFind_childSet_other (c d : Byte) (n : TrieNode) (ch : List (Byte × TrieNode))
    (h : d ≠ c) : childFind d (childSet c n ch) = childFind d ch := by
  induction ch with
  | nil => simp [childSet, childFind, h.symm]
  | cons x ch ih =>
    obtain ⟨k, m⟩ := x
    by_cases hk : k = c
    · have hd : k ≠ d := fun e => h (e ▸ hk)
      simp [childSet, childFind, hk, hd, h.symm]
    · by_cases hd : k = d
      · subst hd
        simp [childSet, childFind, h]
      · simp [childSet, childFind, hk, hd, ih]

theorem searchInTrie_new (key : List Byte) : searchInTrie TrieNode.new key = -1 := by
  cases key <;> simp [TrieNode.new, searchInTrie, childFind]

/-- Lookup after an insert: the inserted key yields the inserted offset, and every other key
yields what it did before. -/
theorem searchInTrie_insertIntoTrie (t : TrieNode) (k k' : List Byte) (v : Int) :
    searchInTrie (insertIntoTrie t k v) k' = if k' = k then v else searchInTrie t k' := by
  induction k generalizing t k' with
  | nil =>
    cases t with
    | mk ch off =>
      cases k' with
      | nil => simp [insertIntoTrie, searchInTrie]
      | cons c' k1' => simp [insertIntoTrie, searchInTrie]
  | cons c k1 ih =>
    cases t with
    | mk ch off =>
      cases k' with
      | nil =>
        cases hf : childFind c ch <;> simp [insertIntoTrie, searchInTrie, hf]
      | cons c' k1' =>
        by_cases hc : c' = c
        · subst hc
          cases hf : childFind c' ch with
          | none =>
            simp only [insertIntoTrie, searchInTrie, hf, childFind_childSet_same, ih,
              searchInTrie_new, List.cons.injEq, true_and]
          | some child =>
            simp only [insertIntoTrie, searchInTrie, hf, childFind_childSet_same, ih,
              List.cons.injEq, true_and]
        · cases hf : childFind c ch <;>
            simp [insertIntoTrie, searchInTrie, hf, childFind_childSet_other _ _ _ _ hc, hc]


/-! ## Machine integers and buffers -/

theorem toInt32_of_lt (n : Nat) (h : n < 2 ^ 31) : toInt32 n = (n : Int) := by
  have h1 : n % 2 ^ 32 = n := Nat.mod_eq_of_lt (by omega)
  unfold toInt32
  rw [h1, if_pos h]

theorem toInt32_range (n : Nat) : -2 ^ 31 ≤ toInt32 n ∧ toInt32 n < 2 ^ 31 := by
  unfold toInt32
  have h1 : n % 2 ^ 32 < 2 ^ 32 := Nat.mod_lt _ (by norm_num)
  split <;> constructor <;> omega

theorem toInt32_le (n : Nat) : toInt32 n ≤ (n : Int) := by
  unfold toInt32
  have h1 : n % 2 ^ 32 ≤ n := Nat.mod_le _ _
  split <;> omega

theorem length_le32 (i : Int) : (le32 i).length = 4 := rfl

theorem fromLe32_le32 (i : Int) (h1 : -2 ^ 31 ≤ i) (h2 : i < 2 ^ 31) : fromLe32 (le32 i) = i := by
  simp only [fromLe32, le32, List.getD_cons_zero, List.getD_cons_succ]
  have hu : ((i % 2 ^ 32).toNat : Int) = i % 2 ^ 32 := Int.toNat_of_nonneg (Int.emod_nonneg _ (by norm_num))
  generalize (i % 2 ^ 32).toNat = u at hu
  have hlt : (u : Int) < 2 ^ 32 := by rw [hu]; exact Int.emod_lt_of_pos _ (by norm_num)
  have hsum : u % 256 + 256 * (u / 256 % 256) + 65536 * (u / 65536 % 256)
      + 16777216 * (u / 16777216 % 256) = u := by omega
  rw [hsum]
  unfold toInt32
  have hmod : u % 2 ^ 32 = u := Nat.mod_eq_of_lt (by omega)
  rw [hmod]
  split <;> omega

theorem overlay_full (got junk : List Byte) (n : Nat) (h : got.length = n) :
    overlay got junk n = got := by
  apply List.ext_getElem
  · simp [overlay, h]
  · intro i h1 h2
    simp [overlay, List.getElem?_eq_getElem h2]

theorem cString_append_zero (s : List Byte) (h : 0 ∉ s) : cString (s ++ [0]) = s := by
  have := takeWhile_ne_append 0 s [] h
  simpa [cString] using this

theorem writeAt_end (file bytes : List Byte) : writeAt file file.length bytes = file ++ bytes := by
  unfold writeAt
  split
  · rename_i h
    simp at h
    simp [h]
  · simp

/-! ## Writing and reading records -/

theorem construct_healthy (disk : Option (List Byte)) : Healthy (construct disk) := by
  simp [Healthy, Tidy, logOf, construct, FStream.seekEnd, FStream.seek, FStream.flush,
    FStream.tell, writeAt]

theorem construct_file (disk : Option (List Byte)) :
    (construct disk).storage.file = disk.getD [] := by
  simp [construct, FStream.seekEnd, FStream.seek, FStream.flush, writeAt]

theorem construct_log (disk : Option (List Byte)) : logOf (construct disk) = disk.getD [] := by
  simp [logOf, construct, FStream.seekEnd, FStream.seek, FStream.flush, writeAt]

/-- The returned offset is the value of `nextOffset` before the call. -/
theorem writeContact_fst (ab : AddressBook) (c : Contact) :
    (writeContact ab c).1 = ab.nextOffset := rfl

theorem writeContact_tries (ab : AddressBook) (c : Contact) :
    (writeContact ab c).2.phoneIndexRoot = ab.phoneIndexRoot ∧
    (writeContact ab c).2.nameIndexRoot = ab.nameIndexRoot := ⟨rfl, rfl⟩

/-- Flushing a tidy stream appends the buffered bytes to the file. -/
theorem flush_tidy (s : FStream) (h : Tidy s) :
    s.flush.file = s.file ++ s.pending ∧ s.flush.pending = [] ∧
      s.flush.isOpen = s.isOpen ∧ s.flush.fail = s.fail := by
  refine ⟨?_, rfl, rfl, rfl⟩
  rcases h.2 with h0 | h0
  · simp [FStream.flush, h0, writeAt]
  · simp only [FStream.flush, h0, writeAt_end]

/-- The `seekp` at the start of a write on a healthy store puts the whole log into the
file. -/
theorem seek_healthy (ab : AddressBook) (h : Healthy ab) :
    ab.storage.seek ab.nextOffset = ⟨logOf ab, true, false, (logOf ab).length, []⟩ := by
  obtain ⟨ht, hf, hn⟩ := h
  have hfl := flush_tidy ab.storage ht
  have hnn : (0 : Int) ≤ ((logOf ab).length : Int) := by omega
  unfold FStream.seek
  rw [hf, ht.1, hn]
  simp only [Bool.false_eq_true, if_false, Bool.not_true, hnn, if_true, Int.toNat_ofNat]
  have e : ab.storage.flush = ⟨logOf ab, true, false, ab.storage.flush.pos, []⟩ := by
    have h1 := hfl.1
    have h2 := hfl.2.1
    have h3 := hfl.2.2.1
    have h4 := hfl.2.2.2
    rw [ht.1] at h3
    rw [hf] at h4
    cases hs : ab.storage.flush with
    | mk file isOpen fail pos pending =>
      rw [hs] at h1 h2 h3 h4
      simp only at h1 h2 h3 h4
      rw [h1, h2, h3, h4]
      rfl
  rw [e]

/-- A write on a healthy store whose payload length, as an `int`, is not negative: the
length bytes and that many bytes of the payload are appended to the log; they are in the
file itself only when the payload has at least `1024` bytes, and the log as it was before
is in the file in any case. -/
theorem writeContact_healthy (ab : AddressBook) (c : Contact) (h : Healthy ab)
    (hl : 0 ≤ toInt32 (encode c).length) :
    logOf (writeContact ab c).2
        = logOf ab ++ le32 (toInt32 (encode c).length)
          ++ (encode c).take (toInt32 (encode c).length).toNat ∧
      ((toInt32 (encode c).length).toNat < 1024 →
        (writeContact ab c).2.storage.file = logOf ab) ∧
      (1024 ≤ (toInt32 (encode c).length).toNat →
        (writeContact ab c).2.storage.file
          = logOf ab ++ le32 (toInt32 (encode c).length)
            ++ (encode c).take (toInt32 (encode c).length).toNat) ∧
      (writeContact ab c).2.nextOffset = ab.nextOffset + 4 + toInt32 (encode c).length ∧
      Healthy (writeContact ab c).2 := by
  have hseek := seek_healthy ab h
  have hnext := h.2.2
  have hle := toInt32_le (encode c).length
  generalize hL : toInt32 (encode c).length = L at hl hle
  obtain ⟨n, rfl⟩ := Int.eq_ofNat_of_zero_le hl
  have hn : n ≤ (encode c).length := by omega
  have htake : (encode c ++ [0]).take n = (encode c).take n := by
    rw [List.take_append_of_le_length hn]
  have hlen : ((encode c).take n).length = n := by simp [hn]
  have hnn : ¬ ((n : Int) < 0) := by omega
  have htk : (le32 (n : Int)).take 4 = le32 (n : Int) := rfl
  have h4 : (le32 (n : Int)).length = 4 := rfl
  have hw : writeAt (logOf ab) (logOf ab).length (le32 (n : Int) ++ (encode c).take n)
      = logOf ab ++ (le32 (n : Int) ++ (encode c).take n) := writeAt_end _ _
  by_cases hbig : 1024 ≤ n
  · have hlim : min FStream.chunk (FStream.bufferSize - 4) ≤ n := by
      simp only [FStream.chunk, FStream.bufferSize]; omega
    have hs2 : (writeContact ab c).2.storage
        = ⟨logOf ab ++ (le32 (n : Int) ++ (encode c).take n), true, false,
            (logOf ab).length + (4 + n), []⟩ := by
      simp only [writeContact, hseek, hL]
      simp [FStream.write, FStream.chunk, FStream.bufferSize, htk, h4, hnn, htake, hlen,
        hw, hbig]
    have hnx : (writeContact ab c).2.nextOffset = ab.nextOffset + 4 + (n : Int) := by
      have : (writeContact ab c).2.nextOffset = (writeContact ab c).2.storage.tell := rfl
      rw [this, hs2, hnext]
      simp [FStream.tell]
      omega
    refine ⟨?_, fun h' => absurd hbig (by simpa using h'), fun _ => ?_, hnx, ?_⟩
    · simp [logOf, hs2]
    · simp [hs2]
    · refine ⟨?_, by rw [hs2], ?_⟩
      · rw [hs2]; exact ⟨rfl, Or.inl rfl⟩
      · rw [hnx, hnext]
        simp [logOf, hs2, hlen, h4]
        omega
  · have hs2 : (writeContact ab c).2.storage
        = ⟨logOf ab, true, false, (logOf ab).length, le32 (n : Int) ++ (encode c).take n⟩ := by
      simp only [writeContact, hseek, hL]
      simp [FStream.write, FStream.chunk, FStream.bufferSize, htk, h4, hnn, htake, hlen, hbig]
    have hnx : (writeContact ab c).2.nextOffset = ab.nextOffset + 4 + (n : Int) := by
      have : (writeContact ab c).2.nextOffset = (writeContact ab c).2.storage.tell := rfl
      rw [this, hs2, hnext]
      simp [FStream.tell, hlen, h4]
      omega
    refine ⟨?_, fun _ => ?_, fun h' => absurd (by simpa using h') hbig, hnx, ?_⟩
    · simp [logOf, hs2]
    · simp [hs2]
    · refine ⟨?_, by rw [hs2], ?_⟩
      · rw [hs2]; exact ⟨rfl, Or.inr rfl⟩
      · rw [hnx, hnext]
        simp [logOf, hs2, hlen, h4]
        omega

/-- A write on a healthy store whose payload is shorter than `2^31` bytes appends the
stored record to the log and advances `nextOffset` by its length; the log as it was before
is in the file. -/
theorem writeContact_small (ab : AddressBook) (c : Contact) (h : Healthy ab)
    (hl : (encode c).length < 2 ^ 31) :
    logOf (writeContact ab c).2 = logOf ab ++ storedRecord c ∧
      (writeContact ab c).2.nextOffset = ab.nextOffset + 4 + ((encode c).length : Int) ∧
      Healthy (writeContact ab c).2 ∧
      (∃ extra, (writeContact ab c).2.storage.file = logOf ab ++ extra) ∧
      ((encode c).length < 1024 → (writeContact ab c).2.storage.file = logOf ab) ∧
      (1024 ≤ (encode c).length →
        (writeContact ab c).2.storage.file = logOf ab ++ storedRecord c) := by
  have e := toInt32_of_lt _ hl
  have hw := writeContact_healthy ab c h (by rw [e]; omega)
  rw [e] at hw
  simp only [Int.toNat_ofNat, List.take_length] at hw
  obtain ⟨h1, h2, h3, h4, h5⟩ := hw
  refine ⟨by rw [h1]; simp [storedRecord], h4, h5, ?_, h2, fun hb => ?_⟩
  · by_cases hb : (encode c).length < 1024
    · exact ⟨[], by rw [h2 hb, List.append_nil]⟩
    · exact ⟨_, by rw [h3 (by omega), List.append_assoc]⟩
  · rw [h3 hb]; simp [storedRecord]

/-- A write whose payload length is negative as an `int` leaves the stream failed, and
`tellp` then yields `-1`. -/
theorem writeContact_overflow (ab : AddressBook) (c : Contact)
    (hl : toInt32 (encode c).length < 0) :
    (writeContact ab c).2.storage.fail = true ∧ (writeContact ab c).2.nextOffset = -1 := by
  simp only [writeContact, FStream.write, FStream.tell]
  split <;> simp [hl]

/-- On a healthy store such a write puts the log as it was into the file and leaves the
four length bytes in the buffer. -/
theorem writeContact_overflow_file (ab : AddressBook) (c : Contact) (h : Healthy ab)
    (hl : toInt32 (encode c).length < 0) :
    (writeContact ab c).2.storage.file = logOf ab ∧
      (writeContact ab c).2.storage.pending = le32 (toInt32 (encode c).length) ∧
      Tidy (writeContact ab c).2.storage := by
  have hseek := seek_healthy ab h
  have htk : ∀ i : Int, (le32 i).take 4 = le32 i := fun _ => rfl
  have hs2 : (writeContact ab c).2.storage
      = ⟨logOf ab, true, true, (logOf ab).length, le32 (toInt32 (encode c).length)⟩ := by
    simp only [writeContact, hseek]
    simp [FStream.write, FStream.chunk, FStream.bufferSize, htk, hl]
  rw [hs2]
  exact ⟨rfl, rfl, rfl, Or.inr rfl⟩

/-- A write on a failed stream changes nothing in the file or in the buffer. -/
theorem writeContact_failed (ab : AddressBook) (c : Contact) (h : ab.storage.fail = true) :
    (writeContact ab c).2.storage.file = ab.storage.file ∧
      (writeContact ab c).2.storage.fail = true ∧
      (writeContact ab c).2.storage.pending = ab.storage.pending ∧
      (writeContact ab c).2.storage.pos = ab.storage.pos ∧
      (writeContact ab c).2.storage.isOpen = ab.storage.isOpen := by
  simp [writeContact, FStream.seek, FStream.write, h]

theorem addContact_storage (ab : AddressBook) (c : Contact) :
    (addContact ab c).storage = (writeContact ab c).2.storage ∧
      (addContact ab c).nextOffset = (writeContact ab c).2.nextOffset := ⟨rfl, rfl⟩

theorem addContact_log (ab : AddressBook) (c : Contact) :
    logOf (addContact ab c) = logOf (writeContact ab c).2 := rfl

theorem addContact_phoneIndexRoot (ab : AddressBook) (c : Contact) :
    (addContact ab c).phoneIndexRoot
      = insertIntoTrie ab.phoneIndexRoot c.phoneNumber ab.nextOffset := rfl

theorem addContact_nameIndexRoot (ab : AddressBook) (c : Contact) :
    (addContact ab c).nameIndexRoot
      = insertIntoTrie ab.nameIndexRoot (c.firstName ++ [32] ++ c.lastName) ab.nextOffset := rfl

theorem addContact_healthy (ab : AddressBook) (c : Contact) (h : Healthy ab)
    (hl : (encode c).length < 2 ^ 31) : Healthy (addContact ab c) :=
  (writeContact_small ab c h hl).2.2.1

theorem addAll_nil (ab : AddressBook) : addAll ab [] = ab := rfl

theorem addAll_cons (ab : AddressBook) (c : Contact) (cs : List Contact) :
    addAll ab (c :: cs) = addAll (addContact ab c) cs := rfl

theorem addAll_append (ab : AddressBook) (cs ds : List Contact) :
    addAll ab (cs ++ ds) = addAll (addAll ab cs) ds := by
  simp [addAll, List.foldl_append]

theorem addAll_healthy (ab : AddressBook) (cs : List Contact) (h : Healthy ab)
    (hl : ∀ x ∈ cs, (encode x).length < 2 ^ 31) : Healthy (addAll ab cs) := by
  induction cs generalizing ab with
  | nil => exact h
  | cons c cs ih =>
    rw [addAll_cons]
    exact ih _ (addContact_healthy ab c h (hl c (by simp)))
      (fun x hx => hl x (by simp [hx]))

theorem sound_of_healthy (ab : AddressBook) (h : Healthy ab) : Sound ab :=
  ⟨h.1, Or.inr h.2.2⟩

theorem healthy_of_sound (ab : AddressBook) (h : Sound ab) (hf : ab.storage.fail = false) :
    Healthy ab := by
  refine ⟨h.1, hf, ?_⟩
  rcases h.2 with h2 | h2
  · rw [hf] at h2; exact absurd h2 (by decide)
  · exact h2

/-- Every add leaves the content of the file in place and only appends to it, and the
store stays sound; on a healthy store the add puts at least the log as it was into the
file. -/
theorem addContact_extends (ab : AddressBook) (c : Contact) (h : Sound ab) :
    (∃ extra, (addContact ab c).storage.file = ab.storage.file ++ extra) ∧
      Sound (addContact ab c) ∧
      (ab.storage.fail = false → ∃ extra, (addContact ab c).storage.file = logOf ab ++ extra) := by
  cases hf : ab.storage.fail with
  | true =>
    have hw := writeContact_failed ab c hf
    refine ⟨⟨[], by rw [(addContact_storage ab c).1, hw.1, List.append_nil]⟩, ⟨⟨?_, ?_⟩, ?_⟩,
      fun e => absurd e (by decide)⟩
    · rw [(addContact_storage ab c).1, hw.2.2.2.2]; exact h.1.1
    · rw [(addContact_storage ab c).1, hw.2.2.1, hw.2.2.2.1, hw.1]; exact h.1.2
    · exact Or.inl hw.2.1
  | false =>
    have hh := healthy_of_sound ab h hf
    by_cases hl : 0 ≤ toInt32 (encode c).length
    · obtain ⟨h1, h2, h3, h4, h5⟩ := writeContact_healthy ab c hh hl
      have hex : ∃ extra, (addContact ab c).storage.file = logOf ab ++ extra := by
        rw [(addContact_storage ab c).1]
        by_cases hb : (toInt32 (encode c).length).toNat < 1024
        · exact ⟨[], by rw [h2 hb, List.append_nil]⟩
        · exact ⟨_, by rw [h3 (by omega), List.append_assoc]⟩
      obtain ⟨extra, he⟩ := hex
      exact ⟨⟨ab.storage.pending ++ extra, by rw [he, logOf, List.append_assoc]⟩,
        sound_of_healthy _ h5, fun _ => ⟨extra, he⟩⟩
    · have ho := writeContact_overflow_file ab c hh (by omega)
      have hfail := (writeContact_overflow ab c (by omega)).1
      refine ⟨⟨ab.storage.pending, by rw [(addContact_storage ab c).1, ho.1]; rfl⟩,
        ⟨ho.2.2, Or.inl hfail⟩, fun _ => ⟨[], by
          rw [(addContact_storage ab c).1, ho.1, List.append_nil]⟩⟩

theorem addAll_extends (ab : AddressBook) (cs : List Contact) (h : Sound ab) :
    (∃ extra, (addAll ab cs).storage.file = ab.storage.file ++ extra) ∧
      Sound (addAll ab cs) := by
  induction cs generalizing ab with
  | nil => exact ⟨⟨[], by simp [addAll_nil]⟩, h⟩
  | cons c cs ih =>
    rw [addAll_cons]
    obtain ⟨⟨e1, h1⟩, h2, _⟩ := addContact_extends ab c h
    obtain ⟨⟨e2, h3⟩, h4⟩ := ih _ h2
    exact ⟨⟨e1 ++ e2, by rw [h3, h1, List.append_assoc]⟩, h4⟩

/-- Once the stream has failed, adds no longer change the file. -/
theorem addAll_failed (ab : AddressBook) (cs : List Contact) (h : ab.storage.fail = true) :
    (addAll ab cs).storage.file = ab.storage.file := by
  induction cs generalizing ab with
  | nil => rfl
  | cons c cs ih =>
    rw [addAll_cons, ih _ (by rw [(addContact_storage ab c).1]; exact (writeContact_failed ab c h).2.1),
      (addContact_storage ab c).1, (writeContact_failed ab c h).1]

/-- After an add on a healthy store and at least one more add, the log as it was right
after the first of them is in the file. -/
theorem addAll_flushes (ab : AddressBook) (d : Contact) (rest : List Contact)
    (h : Healthy ab) :
    ∃ extra, (addAll ab (d :: rest)).storage.file = logOf ab ++ extra := by
  obtain ⟨_, hs, hx⟩ := addContact_extends ab d (sound_of_healthy ab h)
  obtain ⟨e1, he1⟩ := hx h.2.1
  obtain ⟨⟨e2, he2⟩, _⟩ := addAll_extends (addContact ab d) rest hs
  exact ⟨e1 ++ e2, by rw [addAll_cons, he2, he1, List.append_assoc]⟩

/-- Closing a sound store puts its whole log into the file. -/
theorem close_sound (ab : AddressBook) (h : Sound ab) :
    (close ab).storage.file = logOf ab ∧ (close ab).storage.isOpen = false ∧
      (close ab).storage.pending = [] := by
  have hfl := flush_tidy ab.storage h.1
  have e : (close ab).storage = { ab.storage.flush with isOpen := false } := by
    simp [close, FStream.close, h.1.1]
  rw [e]
  exact ⟨hfl.1, rfl, hfl.2.1⟩

/-- The `seekg` of `readContact` on its fresh handle. -/
theorem seek_fresh (file : List Byte) (off : Int) :
    (⟨file, true, false, 0, []⟩ : FStream).seek off
      = if 0 ≤ off then ⟨file, true, false, off.toNat, []⟩ else ⟨file, true, true, 0, []⟩ := by
  by_cases h : 0 ≤ off <;> simp [FStream.seek, FStream.flush, writeAt, h]

/-- Reading a record that lies in the file: neither the bytes after it nor the
uninitialised storage matter. -/
theorem readContact_record (mem : Uninit) (pre body extra : List Byte) (n : Nat)
    (hn : n < 2 ^ 31) (hb : body.length = n) :
    readContact mem (pre ++ le32 (n : Int) ++ body ++ extra) (pre.length : Int)
      = if n = 2 ^ 31 - 1 then .error .undefinedBehaviour
        else .ok (decode (cString (body ++ [0]))) := by
  have hd1 : ((pre ++ le32 (n : Int) ++ body ++ extra).drop pre.length).take 4 = le32 (n : Int) := by
    have : pre ++ le32 (n : Int) ++ body ++ extra = pre ++ (le32 (n : Int) ++ (body ++ extra)) := by
      simp
    rw [this, List.drop_left]
    have h4 : (le32 (n : Int)).length = 4 := rfl
    rw [← h4, List.take_left]
  have hd2 : ((pre ++ le32 (n : Int) ++ body ++ extra).drop (pre.length + 4)).take n = body := by
    have : pre ++ le32 (n : Int) ++ body ++ extra = (pre ++ le32 (n : Int)) ++ (body ++ extra) := by
      simp
    have h4 : pre.length + 4 = (pre ++ le32 (n : Int)).length := by simp [length_le32]
    rw [this, h4, List.drop_left, ← hb, List.take_left]
  have hov1 : ∀ junk, overlay (le32 (n : Int)) junk 4 = le32 (n : Int) :=
    fun junk => overlay_full _ _ _ rfl
  have hov2 : ∀ junk, overlay body junk n = body := fun junk => overlay_full _ _ _ hb
  have hfrom : fromLe32 (le32 (n : Int)) = (n : Int) := fromLe32_le32 _ (by omega) (by omega)
  have hneg : ¬ ((n : Int) = -1) := by omega
  have hlt : ¬ ((n : Int) < 0) := by omega
  simp only [readContact, seek_fresh, FStream.read]
  simp [hd1, hov1, hfrom, hneg, hlt, hd2, hov2, length_le32]
  have ht : (body ++ extra).take n = body := by rw [← hb, List.take_left]
  rw [ht, hov2]
  by_cases h : n = 2147483647
  · have : (n : Int) = 2147483647 := by omega
    rw [if_pos h, if_pos this]
  · have : ¬ ((n : Int) = 2147483647) := by omega
    rw [if_neg h, if_neg this]

/-- Reading the record of a contact without zero byte whose payload is shorter than
`2^31 - 1` bytes yields the decoding of its payload. -/
theorem readContact_storedRecord (mem : Uninit) (pre extra : List Byte) (c : Contact)
    (h0 : 0 ∉ encode c) (hl : (encode c).length + 1 < 2 ^ 31) :
    readContact mem (pre ++ storedRecord c ++ extra) (pre.length : Int)
      = .ok (decode (encode c)) := by
  have := readContact_record mem pre (encode c) extra (encode c).length (by omega) rfl
  have hne : ¬ ((encode c).length = 2 ^ 31 - 1) := by omega
  rw [if_neg hne, cString_append_zero _ h0] at this
  rw [← this]
  simp [storedRecord]

/-- Every add appends to the log, in a sound store. -/
theorem addContact_log_extends (ab : AddressBook) (c : Contact) (h : Sound ab) :
    ∃ extra, logOf (addContact ab c) = logOf ab ++ extra := by
  rw [addContact_log]
  cases hf : ab.storage.fail with
  | true =>
    have hw := writeContact_failed ab c hf
    exact ⟨[], by simp [logOf, hw.1, hw.2.2.1]⟩
  | false =>
    have hh := healthy_of_sound ab h hf
    by_cases hl : 0 ≤ toInt32 (encode c).length
    · exact ⟨_, by rw [(writeContact_healthy ab c hh hl).1, List.append_assoc]⟩
    · have ho := writeContact_overflow_file ab c hh (by omega)
      exact ⟨_, by rw [logOf, ho.1, ho.2.1]⟩

theorem addAll_log_extends (ab : AddressBook) (cs : List Contact) (h : Sound ab) :
    ∃ extra, logOf (addAll ab cs) = logOf ab ++ extra := by
  induction cs generalizing ab with
  | nil => exact ⟨[], by simp [addAll_nil]⟩
  | cons c cs ih =>
    obtain ⟨e1, h1⟩ := addContact_log_extends ab c h
    obtain ⟨e2, h2⟩ := ih _ (addContact_extends ab c h).2.1
    exact ⟨e1 ++ e2, by rw [addAll_cons, h2, h1, List.append_assoc]⟩

/-- Where the record of a contact added to a healthy store is in the file: after at least
one more add, and after `close()` following any further adds. -/
theorem record_in_file (ab : AddressBook) (c : Contact) (later : List Contact)
    (h : Healthy ab) (hl : (encode c).length < 2 ^ 31) :
    (later ≠ [] → ∃ extra, (addAll (addContact ab c) later).storage.file
      = logOf ab ++ storedRecord c ++ extra) ∧
    ∃ extra, (close (addAll (addContact ab c) later)).storage.file
      = logOf ab ++ storedRecord c ++ extra := by
  have hw := writeContact_small ab c h hl
  have hh : Healthy (addContact ab c) := hw.2.2.1
  have hlog : logOf (addContact ab c) = logOf ab ++ storedRecord c := hw.1
  constructor
  · intro hne
    cases later with
    | nil => exact absurd rfl hne
    | cons d rest =>
      obtain ⟨extra, he⟩ := addAll_flushes (addContact ab c) d rest hh
      exact ⟨extra, by rw [he, hlog]⟩
  · have hs := (addAll_extends (addContact ab c) later (sound_of_healthy _ hh)).2
    obtain ⟨extra, he⟩ := addAll_log_extends (addContact ab c) later (sound_of_healthy _ hh)
    exact ⟨extra, by rw [(close_sound _ hs).1, he, hlog]⟩

/-! ## The store -/

theorem addAll_phone_other (ab : AddressBook) (cs : List Contact) (p : List Byte)
    (h : ∀ x ∈ cs, x.phoneNumber ≠ p) :
    searchInTrie (addAll ab cs).phoneIndexRoot p = searchInTrie ab.phoneIndexRoot p := by
  induction cs generalizing ab with
  | nil => rfl
  | cons c cs ih =>
    rw [addAll_cons, ih _ (fun x hx => h x (by simp [hx])), addContact_phoneIndexRoot,
      searchInTrie_insertIntoTrie, if_neg (fun e => h c (by simp) e.symm)]

theorem cString_append_zero_eq (s : List Byte) :
    cString (s ++ [0]) = s.takeWhile (fun b => b != 0) := by
  induction s with
  | nil => simp [cString]
  | cons a s ih =>
    unfold cString at ih ⊢
    by_cases ha : (a != 0) = true
    · simp only [List.cons_append, List.takeWhile_cons, ha, if_true, ih]
    · simp only [List.cons_append, List.takeWhile_cons, ha, Bool.false_eq_true, if_false]

/-- Reading the stored record of a contact out of a file that holds it whole: the decoding
of the payload up to its first zero byte. -/
theorem readContact_whole (mem : Uninit) (pre extra : List Byte) (c : Contact)
    (hl : (encode c).length + 1 < 2 ^ 31) :
    readContact mem (pre ++ storedRecord c ++ extra) (pre.length : Int)
      = .ok (decode ((encode c).takeWhile (fun b => b != 0))) := by
  have := readContact_record mem pre (encode c) extra (encode c).length (by omega) rfl
  rw [if_neg (by omega), cString_append_zero_eq] at this
  rw [← this]
  simp [storedRecord]

/-- A lookup by phone number in a store whose index holds the offset of a record that is
whole in the file. -/
theorem searchByPhoneNumber_of_record (mem : Uninit) (st : AddressBook) (key pre extra : List Byte)
    (c : Contact) (hidx : searchInTrie st.phoneIndexRoot key = (pre.length : Int))
    (hfile : st.storage.file = pre ++ storedRecord c ++ extra)
    (hl : (encode c).length + 1 < 2 ^ 31) :
    searchByPhoneNumber mem st key = .ok (decode ((encode c).takeWhile (fun b => b != 0))) := by
  have hne : (pre.length : Int) ≠ -1 := by omega
  unfold searchByPhoneNumber
  simp only [hidx, ne_eq, hne, not_false_eq_true, if_true]
  rw [hfile, readContact_whole mem pre extra c hl]

/-- Lookup by phone number of a contact added to a healthy store: after at least one later
add, and after `close()`, the later adds being of other phone numbers. -/
theorem searchByPhoneNumber_added (mem : Uninit) (ab : AddressBook) (c : Contact)
    (later : List Contact) (h : Healthy ab) (hl : (encode c).length + 1 < 2 ^ 31)
    (hlater : ∀ x ∈ later, x.phoneNumber ≠ c.phoneNumber) :
    searchInTrie (addAll (addContact ab c) later).phoneIndexRoot c.phoneNumber = ab.nextOffset ∧
    (later ≠ [] → searchByPhoneNumber mem (addAll (addContact ab c) later) c.phoneNumber
      = .ok (decode ((encode c).takeWhile (fun b => b != 0)))) ∧
    searchByPhoneNumber mem (close (addAll (addContact ab c) later)) c.phoneNumber
      = .ok (decode ((encode c).takeWhile (fun b => b != 0))) := by
  have hidx : searchInTrie (addAll (addContact ab c) later).phoneIndexRoot c.phoneNumber
      = ab.nextOffset := by
    rw [addAll_phone_other _ _ _ hlater, addContact_phoneIndexRoot, searchInTrie_insertIntoTrie,
      if_pos rfl]
  have hrec := record_in_file ab c later h (by omega)
  refine ⟨hidx, fun hne => ?_, ?_⟩
  · obtain ⟨extra, he⟩ := hrec.1 hne
    exact searchByPhoneNumber_of_record mem _ _ (logOf ab) extra c (by rw [hidx, h.2.2]) he hl
  · obtain ⟨extra, he⟩ := hrec.2
    exact searchByPhoneNumber_of_record mem _ _ (logOf ab) extra c
      (by rw [← h.2.2, ← hidx]; rfl) he hl

/-! ## Lookup by phone number -/

/-- C5: in a store opened on any file and extended by any adds, `searchByPhoneNumber(p)`
returns the all-empty contact, without a fault, for every `p` that is not the phone number
of an added contact, whether or not `p` and an added number begin alike. -/
theorem phone_lookup_miss (mem : Uninit) (disk : Option (List Byte)) (cs : List Contact)
    (p : List Byte) (h : ∀ c ∈ cs, c.phoneNumber ≠ p) :
    searchByPhoneNumber mem (addAll (construct disk) cs) p = .ok Contact.empty := by
  have hidx : searchInTrie (addAll (construct disk) cs).phoneIndexRoot p = -1 := by
    rw [addAll_phone_other _ _ _ h]
    exact searchInTrie_new p
  simp [searchByPhoneNumber, hidx]

/-- Witness of `phone_lookup_miss`: `"000"` in the empty store, and after the two adds of
`main` a proper initial part of an added number and a proper extension of one. -/
theorem phone_lookup_miss_witness :
    searchByPhoneNumber ⟨[], []⟩ (addAll (construct none) []) (ascii "000")
      = .ok Contact.empty ∧
    searchByPhoneNumber ⟨[], []⟩ (addAll (construct none)
      [⟨ascii "Avinash", ascii "test", ascii "Bengaluru", ascii "9676806379"⟩,
        ⟨ascii "first", ascii "last", ascii "test address ", ascii "1234567890"⟩])
      (ascii "96768") = .ok Contact.empty ∧
    searchByPhoneNumber ⟨[], []⟩ (addAll (construct none)
      [⟨ascii "Avinash", ascii "test", ascii "Bengaluru", ascii "9676806379"⟩,
        ⟨ascii "first", ascii "last", ascii "test address ", ascii "1234567890"⟩])
      (ascii "12345678901") = .ok Contact.empty :=
  ⟨phone_lookup_miss ⟨[], []⟩ none [] (ascii "000") (by decide),
    phone_lookup_miss ⟨[], []⟩ none _ (ascii "96768") (by decide),
    phone_lookup_miss ⟨[], []⟩ none _ (ascii "12345678901") (by decide)⟩

/-! ## Lookup by name -/

/-- C6 at the contacts of `main`: after both adds, the first contact, which the codec
reproduces, is found neither under `"Avinash test"` nor under `"avinash test"`; both
lookups return the all-empty contact. -/
theorem name_lookup_misses_upper_case :
    decode (encode ⟨ascii "Avinash", ascii "test", ascii "Bengaluru", ascii "9676806379"⟩)
      = ⟨ascii "Avinash", ascii "test", ascii "Bengaluru", ascii "9676806379"⟩ ∧
    searchByName ⟨[], []⟩ (addAll (construct none)
      [⟨ascii "Avinash", ascii "test", ascii "Bengaluru", ascii "9676806379"⟩,
        ⟨ascii "first", ascii "last", ascii "test address ", ascii "1234567890"⟩])
      (ascii "Avinash test") = .ok Contact.empty ∧
    searchByName ⟨[], []⟩ (addAll (construct none)
      [⟨ascii "Avinash", ascii "test", ascii "Bengaluru", ascii "9676806379"⟩,
        ⟨ascii "first", ascii "last", ascii "test address ", ascii "1234567890"⟩])
      (ascii "avinash test") = .ok Contact.empty := by
  decide

/-! ## Offsets and the file -/

theorem longName_length : longName.length = 2 ^ 31 := by
  unfold longName
  exact List.length_replicate (2 ^ 31) 97

theorem encode_length (c : Contact) : (encode c).length
    = c.firstName.length + c.lastName.length + c.address.length + c.phoneNumber.length + 3 := by
  simp only [encode, List.length_append, List.length_cons, List.length_nil]
  omega

theorem longContact_firstName : longContact.firstName = longName := rfl

theorem encode_longContact_length : (encode longContact).length = 2 ^ 31 + 3 := by
  rw [encode_length, longContact_firstName, longName_length]
  rfl

theorem toInt32_longContact : toInt32 (encode longContact).length = -2147483645 := by
  rw [encode_longContact_length]
  decide

/-- C7, as stated, fails: the payload of `longContact` has `2^31 + 3` bytes, its length as
an `int` is negative, and the add on the fresh store leaves `nextOffset` at `-1` in place of
`0 + 4 + (2^31 + 3)`. -/
theorem offset_advance_counterexample :
    (encode longContact).length = 2 ^ 31 + 3 ∧
    (writeContact (construct none) longContact).2.nextOffset = -1 ∧
    (writeContact (construct none) longContact).2.nextOffset
      ≠ (construct none).nextOffset + 4 + ((encode longContact).length : Int) := by
  have h := (writeContact_overflow (construct none) longContact
    (by rw [toInt32_longContact]; decide)).2
  refine ⟨encode_longContact_length, h, ?_⟩
  rw [h, encode_longContact_length]
  have : (construct none).nextOffset = 0 := by decide
  rw [this]
  omega

/-- C7, amended: in a store opened on any file and extended by adds whose payloads are
shorter than `2^31` bytes, `writeContact` of a contact with such a payload returns the
value `nextOffset` had before the call and advances `nextOffset` by `4` plus the byte
length of the payload; the offset returned by the next add is therefore the previous one
plus `4` plus that length, and strictly greater. -/
theorem offset_assignment (disk : Option (List Byte)) (cs : List Contact) (c d : Contact)
    (hcs : ∀ x ∈ cs, (encode x).length < 2 ^ 31) (hc : (encode c).length < 2 ^ 31) :
    (writeContact (addAll (construct disk) cs) c).1 = (addAll (construct disk) cs).nextOffset ∧
    (writeContact (addAll (construct disk) cs) c).2.nextOffset
      = (addAll (construct disk) cs).nextOffset + 4 + ((encode c).length : Int) ∧
    (writeContact (addContact (addAll (construct disk) cs) c) d).1
      = (writeContact (addAll (construct disk) cs) c).1 + 4 + ((encode c).length : Int) ∧
    (writeContact (addAll (construct disk) cs) c).1
      < (writeContact (addContact (addAll (construct disk) cs) c) d).1 := by
  have hh := addAll_healthy _ cs (construct_healthy disk) hcs
  have hw := (writeContact_small _ c hh hc).2.1
  have h3 : (writeContact (addContact (addAll (construct disk) cs) c) d).1
      = (writeContact (addAll (construct disk) cs) c).1 + 4 + ((encode c).length : Int) := by
    rw [writeContact_fst, writeContact_fst, (addContact_storage _ c).2, hw]
  refine ⟨rfl, hw, h3, ?_⟩
  rw [h3]
  omega

/-- Witness of `offset_assignment`: the two adds of `main` on a file of five bytes. -/
theorem offset_assignment_witness :
    (writeContact (addAll (construct (some [1, 2, 3, 4, 5])) [])
      ⟨ascii "Avinash", ascii "test", ascii "Bengaluru", ascii "9676806379"⟩).1 = 5 ∧
    (writeContact (addContact (addAll (construct (some [1, 2, 3, 4, 5])) [])
      ⟨ascii "Avinash", ascii "test", ascii "Bengaluru", ascii "9676806379"⟩)
      ⟨ascii "first", ascii "last", ascii "test address ", ascii "1234567890"⟩).1 = 5 + 4 + 33 :=
  ⟨(offset_assignment (some [1, 2, 3, 4, 5]) []
      ⟨ascii "Avinash", ascii "test", ascii "Bengaluru", ascii "9676806379"⟩
      ⟨ascii "first", ascii "last", ascii "test address ", ascii "1234567890"⟩
      (by decide) (by decide)).1,
    (offset_assignment (some [1, 2, 3, 4, 5]) []
      ⟨ascii "Avinash", ascii "test", ascii "Bengaluru", ascii "9676806379"⟩
      ⟨ascii "first", ascii "last", ascii "test address ", ascii "1234567890"⟩
      (by decide) (by decide)).2.2.1⟩

theorem addAll_layout (ab : AddressBook) (cs : List Contact) (h : Healthy ab)
    (hcs : ∀ x ∈ cs, (encode x).length < 2 ^ 31) :
    logOf (addAll ab cs) = logOf ab ++ fileLayout cs := by
  induction cs generalizing ab with
  | nil => simp [addAll_nil, fileLayout]
  | cons c cs ih =>
    have hc := hcs c (by simp)
    rw [addAll_cons, ih _ (addContact_healthy ab c h hc) (fun x hx => hcs x (by simp [hx])),
      addContact_log, (writeContact_small ab c h hc).1]
    simp [fileLayout]

theorem length_fileLayout (cs : List Contact) : (fileLayout cs).length = layoutLength cs := by
  induction cs with
  | nil => rfl
  | cons c cs ih => simp [fileLayout, layoutLength, storedRecord, length_le32, ih]; omega

theorem layoutLength_singleton (c : Contact) :
    layoutLength [c] = 4 + (encode c).length := by
  simp [layoutLength]

/-- C9, as stated, fails: after the two adds of `main` to a store opened on an empty file,
the file holds the `37` bytes of the first record only, the second being in the buffer of
`storage`, and not the `76` bytes of both records.  And after the add of `longContact` and
`close()`, the file holds four bytes, not the `4 + (2^31 + 3)` bytes of the stored
record. -/
theorem file_layout_counterexample :
    (addAll (construct (some []))
      [⟨ascii "Avinash", ascii "test", ascii "Bengaluru", ascii "9676806379"⟩,
        ⟨ascii "first", ascii "last", ascii "test address ", ascii "1234567890"⟩]).storage.file
      = [33, 0, 0, 0] ++ ascii "Avinash,test,Bengaluru,9676806379" ∧
    (addAll (construct (some []))
      [⟨ascii "Avinash", ascii "test", ascii "Bengaluru", ascii "9676806379"⟩,
        ⟨ascii "first", ascii "last", ascii "test address ", ascii "1234567890"⟩]).storage.file
      ≠ fileLayout [⟨ascii "Avinash", ascii "test", ascii "Bengaluru", ascii "9676806379"⟩,
        ⟨ascii "first", ascii "last", ascii "test address ", ascii "1234567890"⟩] ∧
    (close (addAll (construct none) [longContact])).storage.file.length = 4 ∧
    (fileLayout [longContact]).length = 4 + (2 ^ 31 + 3) := by
  have hneg : toInt32 (encode longContact).length < 0 := by
    rw [toInt32_longContact]; decide
  have hh := construct_healthy none
  have ho := writeContact_overflow_file (construct none) longContact hh hneg
  have hs : Sound (addAll (construct none) [longContact]) :=
    (addAll_extends _ _ (sound_of_healthy _ hh)).2
  have hf : (close (addAll (construct none) [longContact])).storage.file.length = 4 := by
    rw [(close_sound _ hs).1]
    rw [addAll_cons, addAll_nil, addContact_log, logOf, ho.1, ho.2.1, construct_log]
    simp only [List.length_append, length_le32, Option.getD_none, List.length_nil]
  have hl : (fileLayout [longContact]).length = 4 + (2 ^ 31 + 3) := by
    rw [length_fileLayout, layoutLength_singleton, encode_longContact_length]
  refine ⟨by decide, fun e => ?_, hf, hl⟩
  have h37 : (addAll (construct (some []))
      [⟨ascii "Avinash", ascii "test", ascii "Bengaluru", ascii "9676806379"⟩,
        ⟨ascii "first", ascii "last", ascii "test address ", ascii "1234567890"⟩]).storage.file.length
      = 37 := by decide
  rw [e, length_fileLayout] at h37
  exact absurd h37 (by decide)

/-- C9, amended: for contacts whose payloads are shorter than `2^31` bytes, added in order
to a store opened on an empty or absent file, the log, that is, the file together with the
bytes still in the buffer of `storage`, is exactly the concatenation of their stored
records in write order, each the four bytes of the payload length followed by the payload.
After `close()` the file itself is this concatenation, and its length is the sum of
`4 + payload length`; before that the file holds at least the records of all adds but the
last. -/
theorem file_layout (disk : Option (List Byte)) (cs : List Contact) (hd : disk.getD [] = [])
    (hcs : ∀ x ∈ cs, (encode x).length < 2 ^ 31) :
    logOf (addAll (construct disk) cs) = fileLayout cs ∧
    (close (addAll (construct disk) cs)).storage.file = fileLayout cs ∧
    (close (addAll (construct disk) cs)).storage.file.length = layoutLength cs ∧
    (∀ init last, cs = init ++ [last] →
      ∃ extra, (addAll (construct disk) cs).storage.file = fileLayout init ++ extra) := by
  have hh := construct_healthy disk
  have hlay : ∀ xs : List Contact, (∀ x ∈ xs, (encode x).length < 2 ^ 31) →
      logOf (addAll (construct disk) xs) = fileLayout xs := by
    intro xs hxs
    have h := addAll_layout _ xs hh hxs
    rwa [construct_log, hd, List.nil_append] at h
  have hs : Sound (addAll (construct disk) cs) :=
    (addAll_extends _ cs (sound_of_healthy _ hh)).2
  have hclose : (close (addAll (construct disk) cs)).storage.file = fileLayout cs := by
    rw [(close_sound _ hs).1, hlay cs hcs]
  refine ⟨hlay cs hcs, hclose, by rw [hclose, length_fileLayout], ?_⟩
  intro init last e
  have hinit : ∀ x ∈ init, (encode x).length < 2 ^ 31 :=
    fun x hx => hcs x (by rw [e]; simp [hx])
  have hhi := addAll_healthy _ init hh hinit
  obtain ⟨extra, he⟩ := addAll_flushes (addAll (construct disk) init) last [] hhi
  refine ⟨extra, ?_⟩
  rw [e, addAll_append, he, hlay init hinit]

/-- Witness of `file_layout`: the two adds of `main` on an empty file, then `close()`. -/
theorem file_layout_witness :
    (close (addAll (construct (some []))
      [⟨ascii "Avinash", ascii "test", ascii "Bengaluru", ascii "9676806379"⟩,
        ⟨ascii "first", ascii "last", ascii "test address ", ascii "1234567890"⟩])).storage.file
      = [33, 0, 0, 0] ++ ascii "Avinash,test,Bengaluru,9676806379"
        ++ [35, 0, 0, 0] ++ ascii "first,last,test address ,1234567890" :=
  (file_layout (some [])
    [⟨ascii "Avinash", ascii "test", ascii "Bengaluru", ascii "9676806379"⟩,
      ⟨ascii "first", ascii "last", ascii "test address ", ascii "1234567890"⟩]
    (by decide) (by decide)).2.1

/-! ## Stability of written records -/

theorem insertIntoTrie_nil_offset (t : TrieNode) (v : Int) :
    (insertIntoTrie t [] v).offset = v ∧ (insertIntoTrie t [] v).children = t.children := by
  cases t with
  | mk ch off => exact ⟨rfl, rfl⟩

/-- C14: for every trie `t`, keys `k`, `k'` and offset `v`, a lookup of `k' ≠ k` after the
insert of `(k, v)` gives what it gave before, whether `k'` is an initial part of `k`, `k`
one of `k'`, or neither; a lookup of `k` gives `v`; in a fresh trie every key other than
`k`, the initial parts of `k` among them, still yields `-1`; and the empty key is stored in
the root node itself, whose children are left as they were. -/
theorem insert_touches_one_key (t : TrieNode) (k k' : List Byte) (v : Int) :
    (k' ≠ k → searchInTrie (insertIntoTrie t k v) k' = searchInTrie t k') ∧
    searchInTrie (insertIntoTrie t k v) k = v ∧
    (k' ≠ k → searchInTrie (insertIntoTrie TrieNode.new k v) k' = -1) ∧
    (insertIntoTrie t [] v).offset = v ∧
    (insertIntoTrie t [] v).children = t.children := by
  refine ⟨fun h => ?_, ?_, fun h => ?_, (insertIntoTrie_nil_offset t v).1,
    (insertIntoTrie_nil_offset t v).2⟩
  · rw [searchInTrie_insertIntoTrie, if_neg h]
  · rw [searchInTrie_insertIntoTrie, if_pos rfl]
  · rw [searchInTrie_insertIntoTrie, if_neg h, searchInTrie_new]

/-- Witness of `insert_touches_one_key`: in a trie that holds `"12"`, the insert of `"1234"`
leaves the lookups of `"12"` (an initial part), of `"123"` (a node created on the way) and of
`"12345"` (an extension) as they were. -/
theorem insert_touches_one_key_witness :
    searchInTrie (insertIntoTrie (insertIntoTrie TrieNode.new (ascii "12") 7) (ascii "1234") 9)
      (ascii "12") = 7 ∧
    searchInTrie (insertIntoTrie (insertIntoTrie TrieNode.new (ascii "12") 7) (ascii "1234") 9)
      (ascii "123") = -1 ∧
    searchInTrie (insertIntoTrie (insertIntoTrie TrieNode.new (ascii "12") 7) (ascii "1234") 9)
      (ascii "12345") = -1 ∧
    searchInTrie (insertIntoTrie (insertIntoTrie TrieNode.new (ascii "12") 7) (ascii "1234") 9)
      (ascii "1234") = 9 :=
  ⟨((insert_touches_one_key (insertIntoTrie TrieNode.new (ascii "12") 7) (ascii "1234")
      (ascii "12") 9).1 (by decide)).trans (by decide),
    ((insert_touches_one_key (insertIntoTrie TrieNode.new (ascii "12") 7) (ascii "1234")
      (ascii "123") 9).1 (by decide)).trans (by decide),
    ((insert_touches_one_key (insertIntoTrie TrieNode.new (ascii "12") 7) (ascii "1234")
      (ascii "12345") 9).1 (by decide)).trans (by decide),
    (insert_touches_one_key (insertIntoTrie TrieNode.new (ascii "12") 7) (ascii "1234")
      (ascii "12") 9).2.1⟩


/-! ## Payloads with fewer than three commas -/

theorem getline_ws_bad (s : IStream) (d : Byte) (old : List Byte) (h : s.good = false) :
    (getline (ws s) d old).1 = old ∧ (getline (ws s) d old).2.good = false ∧
      (getline (ws s) d old).2.fail = true := by
  have hw : ws s = { s with fail := true } := by
    unfold ws
    rw [h]
    rfl
  have hg : (ws s).good = false := by
    rw [hw]
    simp [IStream.good]
  unfold getline
  rw [hg]
  exact ⟨rfl, by simp [IStream.good], rfl⟩

/-- The field read by `getline` after `std::ws` when no comma is left: the rest of the
input without its leading white space, and a stream that is no longer good. -/
theorem getline_ws_eof (r old : List Byte) (h : 44 ∉ r) (hold : old = []) :
    (getline (ws ⟨r, false, false⟩) 44 old).1 = strip r ∧
      (getline (ws ⟨r, false, false⟩) 44 old).2.good = false := by
  subst hold
  cases hr : strip r with
  | nil =>
    have hr2 : r.dropWhile isSpace = [] := hr
    simp [ws, getline, IStream.good, hr2]
  | cons a t =>
    have hr2 : r.dropWhile isSpace = a :: t := hr
    have hm : 44 ∉ a :: t := by rw [← hr]; exact not_mem_strip 44 r h
    have h1 := takeWhile_ne_self 44 (a :: t) hm
    have h2 : (a :: t).dropWhile (fun c => c != 44) = [] := by
      have := List.takeWhile_append_dropWhile (fun c => c != 44) (a :: t)
      rw [h1] at this
      exact List.append_cancel_left (by rw [List.append_nil]; exact this)
    simp only [ws, getline, IStream.good, hr2]
    simp [h1, h2, IStream.good]

theorem decode_no_comma (p : List Byte) (h : 44 ∉ p) :
    decode p = ⟨strip p, [], [], []⟩ ∧
      (extract (IStream.ofString p) Contact.empty).1.fail = true := by
  have e1 := getline_ws_eof p [] h rfl
  have b2 := getline_ws_bad _ 44 [] e1.2
  have b3 := getline_ws_bad _ 44 [] b2.2.1
  have b4 := getline_ws_bad _ 10 [] b3.2.1
  simp only [decode, extract, IStream.ofString, Contact.empty] at e1 b2 b3 b4 ⊢
  rw [e1.1, b2.1, b3.1, b4.1]
  exact ⟨rfl, b4.2.2⟩

theorem decode_one_comma (s1 r : List Byte) (h1 : 44 ∉ s1) (h : 44 ∉ r) :
    decode (s1 ++ [44] ++ r) = ⟨strip s1, strip r, [], []⟩ ∧
      (extract (IStream.ofString (s1 ++ [44] ++ r)) Contact.empty).1.fail = true := by
  have e0 := getline_ws_field s1 r [] h1
  have e1 := getline_ws_eof r [] h rfl
  have e : s1 ++ [44] ++ r = s1 ++ 44 :: r := by simp
  rw [e]
  simp only [decode, extract, IStream.ofString, Contact.empty]
  rw [e0]
  simp only []
  have b3 := getline_ws_bad _ 44 [] e1.2
  have b4 := getline_ws_bad _ 10 [] b3.2.1
  rw [e1.1, b3.1, b4.1]
  exact ⟨rfl, b4.2.2⟩

theorem decode_two_commas (s1 s2 r : List Byte) (h1 : 44 ∉ s1) (h2 : 44 ∉ s2) (h : 44 ∉ r) :
    decode (s1 ++ [44] ++ s2 ++ [44] ++ r) = ⟨strip s1, strip s2, strip r, []⟩ ∧
      (extract (IStream.ofString (s1 ++ [44] ++ s2 ++ [44] ++ r)) Contact.empty).1.fail
        = true := by
  have e0 := getline_ws_field s1 (s2 ++ 44 :: r) [] h1
  have e0' := getline_ws_field s2 r [] h2
  have e1 := getline_ws_eof r [] h rfl
  have e : s1 ++ [44] ++ s2 ++ [44] ++ r = s1 ++ 44 :: (s2 ++ 44 :: r) := by simp
  rw [e]
  simp only [decode, extract, IStream.ofString, Contact.empty]
  rw [e0]
  simp only []
  rw [e0']
  simp only []
  have b4 := getline_ws_bad _ 10 [] e1.2
  rw [e1.1, b4.1]
  exact ⟨rfl, b4.2.2⟩


theorem not_mem_of_count_zero (l : List Byte) (h : l.count 44 = 0) : 44 ∉ l :=
  List.count_eq_zero.mp h

/-- C12, as stated, fails: the stored payload `"a,b"` has one comma, and `readContact`
returns a `Contact`, with the last two fields empty, and no error. -/
theorem decode_few_commas_counterexample :
    (ascii "a,b").count 44 < 3 ∧
    decode (ascii "a,b") = ⟨ascii "a", ascii "b", [], []⟩ ∧
    readContact ⟨[], []⟩ (le32 3 ++ ascii "a,b") 0 = .ok ⟨ascii "a", ascii "b", [], []⟩ := by
  decide

/-- C12, amended: for a payload with fewer than three commas, `operator>>` raises no error
and a `Contact` is returned: the stream is left with `failbit` set, which `readContact` does
not test, phoneNumber is empty, and the fields are the comma-free parts in order, each
without its leading white space, followed by empty fields; `readContact` on a stored record
with such a payload (shorter than `2^31 - 1` bytes) returns the decoding of the payload up
to its first zero byte. -/
theorem decode_few_commas (p : List Byte) (h : p.count 44 < 3) :
    (extract (IStream.ofString p) Contact.empty).1.fail = true ∧
    (decode p).phoneNumber = [] ∧
    (44 ∉ p → decode p = ⟨strip p, [], [], []⟩) ∧
    (∀ s1 r, p = s1 ++ [44] ++ r → 44 ∉ s1 → 44 ∉ r →
      decode p = ⟨strip s1, strip r, [], []⟩) ∧
    (∀ s1 s2 r, p = s1 ++ [44] ++ s2 ++ [44] ++ r → 44 ∉ s1 → 44 ∉ s2 → 44 ∉ r →
      decode p = ⟨strip s1, strip s2, strip r, []⟩) ∧
    (∀ (mem : Uninit) (pre extra : List Byte), p.length + 1 < 2 ^ 31 →
      readContact mem (pre ++ le32 (p.length : Int) ++ p ++ extra) (pre.length : Int)
        = .ok (decode (cString (p ++ [0])))) := by
  have hmain : (extract (IStream.ofString p) Contact.empty).1.fail = true ∧
      (decode p).phoneNumber = [] := by
    by_cases h0 : p.count 44 = 0
    · have := decode_no_comma p (not_mem_of_count_zero p h0)
      exact ⟨this.2, by rw [this.1]⟩
    · obtain ⟨s1, r1, e1, m1, n1⟩ := split_comma p (by omega)
      by_cases h1 : r1.count 44 = 0
      · have := decode_one_comma s1 r1 m1 (not_mem_of_count_zero r1 h1)
        have e : p = s1 ++ [44] ++ r1 := by rw [e1]; simp
        rw [e]
        exact ⟨this.2, by rw [this.1]⟩
      · obtain ⟨s2, r2, e2, m2, n2⟩ := split_comma r1 (by omega)
        have := decode_two_commas s1 s2 r2 m1 m2 (not_mem_of_count_zero r2 (by omega))
        have e : p = s1 ++ [44] ++ s2 ++ [44] ++ r2 := by rw [e1, e2]; simp
        rw [e]
        exact ⟨this.2, by rw [this.1]⟩
  refine ⟨hmain.1, hmain.2, fun h0 => (decode_no_comma p h0).1, ?_, ?_, ?_⟩
  · intro s1 r e m1 m
    rw [e]
    exact (decode_one_comma s1 r m1 m).1
  · intro s1 s2 r e m1 m2 m
    rw [e]
    exact (decode_two_commas s1 s2 r m1 m2 m).1
  · intro mem pre extra hl
    have := readContact_record mem pre p extra p.length (by omega) rfl
    rw [if_neg (by omega)] at this
    exact this

/-- Witness of `decode_few_commas`: the payload `"a, b"` with one comma. -/
theorem decode_few_commas_witness :
    (ascii "a, b").count 44 < 3 ∧
    decode (ascii "a, b") = ⟨strip (ascii "a"), strip (ascii " b"), [], []⟩ :=
  ⟨by decide, (decode_few_commas (ascii "a, b") (by decide)).2.2.2.1 (ascii "a") (ascii " b")
    (by decide) (by decide) (by decide)⟩


/-! ## Reading where no whole record is -/

theorem overlay_take (got junk : List Byte) (n : Nat) (h : got.length ≤ n) :
    (overlay got junk n).take got.length = got := by
  apply List.ext_getElem?
  intro i
  by_cases hi : i < got.length
  · rw [List.getElem?_take_of_lt hi]
    have hin : i < n := by omega
    simp [overlay, List.getElem?_eq_getElem hi, hin]
  · rw [List.getElem?_take_eq_none (by omega), List.getElem?_eq_none (by omega)]

/-- Reading a record whose payload is cut short by the end of the file: no fault, and the
buffer holds the bytes present followed by its previous content. -/
theorem readContact_truncated (mem : Uninit) (pre part : List Byte) (n : Nat)
    (hn : n + 1 < 2 ^ 31) (hp : part.length < n) :
    readContact mem (pre ++ le32 (n : Int) ++ part) (pre.length : Int)
      = .ok (decode (cString (overlay part mem.heap n ++ [0]))) := by
  have hd1 : ((pre ++ le32 (n : Int) ++ part).drop pre.length).take 4 = le32 (n : Int) := by
    have : pre ++ le32 (n : Int) ++ part = pre ++ (le32 (n : Int) ++ part) := by simp
    rw [this, List.drop_left]
    have h4 : (le32 (n : Int)).length = 4 := rfl
    rw [← h4, List.take_left]
  have hov1 : ∀ junk, overlay (le32 (n : Int)) junk 4 = le32 (n : Int) :=
    fun junk => overlay_full _ _ _ rfl
  have hfrom : fromLe32 (le32 (n : Int)) = (n : Int) := fromLe32_le32 _ (by omega) (by omega)
  have hneg : ¬ ((n : Int) = -1) := by omega
  have hlt : ¬ ((n : Int) < 0) := by omega
  simp only [readContact, seek_fresh, FStream.read]
  simp [hd1, hov1, hfrom, hneg, hlt, length_le32]
  rw [if_neg (by omega)]
  simp [List.take_of_length_le (Nat.le_of_lt hp)]

/-- Reading at a negative offset or at or after the end of the file takes nothing from the
file: the result is that of reading an empty file. -/
theorem readContact_outside (mem : Uninit) (file : List Byte) (offset : Int)
    (h : offset < 0 ∨ (file.length : Int) ≤ offset) :
    readContact mem file offset = readContact mem [] 0 := by
  rcases h with h | h
  · have hn : ¬ (0 ≤ offset) := by omega
    simp [readContact, seek_fresh, FStream.read, hn]
  · have hn : 0 ≤ offset := by omega
    have hd : file.drop offset.toNat = [] := List.drop_of_length_le (by omega)
    simp [readContact, seek_fresh, FStream.read, hn, hd]

/-- C11, as stated, fails: in a file that ends three bytes into a payload announced as five
bytes, `readContact` at offset `0` returns a `Contact` made of the bytes present and of what
the buffer held before (with `"12345"` there: `("a", "b45", "", "")`), and at offset `-1` and
at the end of the file it returns the all-empty `Contact` when the uninitialised `length`
is zero; none of these is an error. -/
theorem read_truncated_counterexample :
    readContact ⟨[], ascii "12345"⟩ (le32 5 ++ ascii "a,b") 0
      = .ok ⟨ascii "a", ascii "b45", [], []⟩ ∧
    readContact ⟨[], []⟩ (le32 5 ++ ascii "a,b") 0 = .ok ⟨ascii "a", ascii "b", [], []⟩ ∧
    readContact ⟨[], []⟩ (le32 5 ++ ascii "a,b") (-1) = .ok Contact.empty ∧
    readContact ⟨[], []⟩ (le32 5 ++ ascii "a,b") 7 = .ok Contact.empty := by
  decide

/-- C11, amended: when the file ends after the four length bytes of its last record and
fewer payload bytes than the announced length `n < 2^31 - 1`, `readContact` at that offset
raises no error: it returns the `Contact` decoded from a buffer that starts with the
payload bytes present and continues with its previous content, up to the first zero byte.
At an offset that is negative or at or after the end of the file nothing is taken from the
file, and the result is the one of reading an empty file, fixed by the uninitialised
storage alone. -/
theorem read_truncated_no_error (mem : Uninit) (pre part : List Byte) (n : Nat)
    (hn : n + 1 < 2 ^ 31) (hp : part.length < n) :
    readContact mem (pre ++ le32 (n : Int) ++ part) (pre.length : Int)
      = .ok (decode (cString (overlay part mem.heap n ++ [0]))) ∧
    (overlay part mem.heap n).take part.length = part ∧
    (∀ (file : List Byte) (offset : Int), offset < 0 ∨ (file.length : Int) ≤ offset →
      readContact mem file offset = readContact mem [] 0) :=
  ⟨readContact_truncated mem pre part n hn hp, overlay_take part mem.heap n (Nat.le_of_lt hp),
    fun file offset h => readContact_outside mem file offset h⟩

/-- Witness of `read_truncated_no_error`: the record of the first contact of `main`, cut
after `"Avinash,te"`, behind a whole record. -/
theorem read_truncated_no_error_witness :
    readContact ⟨[], []⟩ (storedRecord ⟨ascii "x", ascii "y", ascii "z", ascii "1"⟩
        ++ le32 33 ++ ascii "Avinash,te")
      ((storedRecord ⟨ascii "x", ascii "y", ascii "z", ascii "1"⟩).length : Int)
      = .ok ⟨ascii "Avinash", ascii "te", [], []⟩ :=
  ((read_truncated_no_error ⟨[], []⟩ (storedRecord ⟨ascii "x", ascii "y", ascii "z", ascii "1"⟩)
    (ascii "Avinash,te") 33 (by decide) (by decide)).1).trans (by decide)

/-! ## After close -/

theorem isUpper_tolower (c : Byte) : isUpper (tolower c) = false := by
  unfold tolower
  by_cases h : 65 ≤ c ∧ c ≤ 90
  · rw [if_pos h]
    have h2 : ¬ (c + 32 ≤ 90) := fun h3 =>
      absurd (Nat.le_trans (Nat.add_le_add_right h.1 32) h3) (by decide)
    simp [isUpper, h2]
  · rw [if_neg h]
    by_cases h1 : 65 ≤ c
    · have h2 : ¬ (c ≤ 90) := fun h3 => h ⟨h1, h3⟩
      simp [isUpper, h2]
    · simp [isUpper, h1]

theorem toLowerCase_no_upper (q : List Byte) : ∀ b ∈ toLowerCase q, isUpper b = false := by
  intro b hb
  simp only [toLowerCase, List.mem_map] at hb
  obtain ⟨a, _, rfl⟩ := hb
  exact isUpper_tolower a

theorem toLowerCase_ne_of_upper (q key : List Byte) (h : ∃ b ∈ key, isUpper b = true) :
    toLowerCase q ≠ key := by
  obtain ⟨b, hb, hu⟩ := h
  intro e
  rw [← e] at hb
  rw [toLowerCase_no_upper q b hb] at hu
  exact absurd hu (by decide)

theorem addAll_name_other (ab : AddressBook) (cs : List Contact) (k : List Byte)
    (h : ∀ x ∈ cs, nameKey x ≠ k) :
    searchInTrie (addAll ab cs).nameIndexRoot k = searchInTrie ab.nameIndexRoot k := by
  induction cs generalizing ab with
  | nil => rfl
  | cons c cs ih =>
    rw [addAll_cons, ih _ (fun x hx => h x (by simp [hx])), addContact_nameIndexRoot,
      searchInTrie_insertIntoTrie, if_neg (fun e => h c (by simp) e.symm)]

/-- A hit in the name index of a store built by adds on fresh indexes comes from an added
contact with that key. -/
theorem name_hit_source (disk : Option (List Byte)) (cs : List Contact) (k : List Byte)
    (h : searchInTrie (addAll (construct disk) cs).nameIndexRoot k ≠ -1) :
    ∃ c ∈ cs, nameKey c = k := by
  by_contra hne
  have hall : ∀ x ∈ cs, nameKey x ≠ k := fun x hx e => hne ⟨x, hx, e⟩
  rw [addAll_name_other _ _ _ hall] at h
  exact h (searchInTrie_new k)

/-- C15: in a store opened on any file and extended by any adds, (1) a hit of the name
index for the lower-cased query `q` comes from an added contact whose key
`firstName + " " + lastName` equals `toLowerCase(q)`; (2) the key of a contact with an
upper-case ASCII letter in firstName or lastName is the lower-case form of no query, so no
query reaches its node; (3) when every added contact is such a one, `searchByName(q)`
returns the all-empty contact for every `q`. -/
theorem upper_case_names_unfindable (mem : Uninit) (disk : Option (List Byte))
    (cs : List Contact) (q : List Byte) :
    (searchInTrie (addAll (construct disk) cs).nameIndexRoot (toLowerCase q) ≠ -1 →
      ∃ c ∈ cs, nameKey c = toLowerCase q) ∧
    (∀ c : Contact, (∃ b ∈ c.firstName ++ c.lastName, isUpper b = true) →
      toLowerCase q ≠ nameKey c) ∧
    ((∀ c ∈ cs, ∃ b ∈ c.firstName ++ c.lastName, isUpper b = true) →
      searchByName mem (addAll (construct disk) cs) q = .ok Contact.empty) := by
  have hkey : ∀ c : Contact, (∃ b ∈ c.firstName ++ c.lastName, isUpper b = true) →
      toLowerCase q ≠ nameKey c := by
    intro c ⟨b, hb, hu⟩
    refine toLowerCase_ne_of_upper q (nameKey c) ⟨b, ?_, hu⟩
    simp only [nameKey, List.mem_append] at hb ⊢
    rcases hb with hb | hb
    · exact Or.inl (Or.inl hb)
    · exact Or.inr hb
  refine ⟨name_hit_source disk cs (toLowerCase q), hkey, fun hall => ?_⟩
  have hidx : searchInTrie (addAll (construct disk) cs).nameIndexRoot (toLowerCase q) = -1 := by
    by_contra hne
    obtain ⟨c, hc, e⟩ := name_hit_source disk cs (toLowerCase q) hne
    exact hkey c (hall c hc) e.symm
  simp [searchByName, hidx]

/-- Witness of `upper_case_names_unfindable`: after the add of the first contact of `main`
alone, its own name is not found. -/
theorem upper_case_names_unfindable_witness :
    searchByName ⟨[], []⟩ (addAll (construct none)
      [⟨ascii "Avinash", ascii "test", ascii "Bengaluru", ascii "9676806379"⟩])
      (ascii "Avinash test") = .ok Contact.empty :=
  (upper_case_names_unfindable ⟨[], []⟩ none
    [⟨ascii "Avinash", ascii "test", ascii "Bengaluru", ascii "9676806379"⟩]
    (ascii "Avinash test")).2.2 (by decide)

theorem ws_rest_subset (s : IStream) : ∀ b ∈ (ws s).rest, b ∈ s.rest := by
  intro b hb
  unfold ws at hb
  split at hb
  · exact (List.dropWhile_sublist isSpace).subset hb
  · exact hb

theorem getline_subset (s : IStream) (d : Byte) (old : List Byte) :
    (∀ b ∈ (getline s d old).1, b ∈ s.rest ∨ b ∈ old) ∧
      ∀ b ∈ (getline s d old).2.rest, b ∈ s.rest := by
  unfold getline
  split
  · split
    · rename_i hdrop
      exact ⟨fun b hb => Or.inl ((List.takeWhile_sublist _).subset hb), fun b hb => by simp at hb⟩
    · rename_i x r hdrop
      refine ⟨fun b hb => Or.inl ((List.takeWhile_sublist _).subset hb), fun b hb => ?_⟩
      have : b ∈ s.rest.dropWhile (fun c => c != d) := by rw [hdrop]; simp [hb]
      exact (List.dropWhile_sublist _).subset this
  · exact ⟨fun b hb => Or.inr hb, fun b hb => hb⟩

/-- Every byte of a decoded field is a byte of the input. -/
theorem decode_subset (s : List Byte) (b : Byte)
    (h : b ∈ (decode s).firstName ∨ b ∈ (decode s).lastName ∨ b ∈ (decode s).address ∨
      b ∈ (decode s).phoneNumber) : b ∈ s := by
  simp only [decode, extract, IStream.ofString, Contact.empty] at h
  have w1 := ws_rest_subset ⟨s, false, false⟩
  have g1 := getline_subset (ws ⟨s, false, false⟩) 44 []
  have w2 := ws_rest_subset (getline (ws ⟨s, false, false⟩) 44 []).2
  have g2 := getline_subset (ws (getline (ws ⟨s, false, false⟩) 44 []).2) 44 []
  have w3 := ws_rest_subset (getline (ws (getline (ws ⟨s, false, false⟩) 44 []).2) 44 []).2
  have g3 := getline_subset
    (ws (getline (ws (getline (ws ⟨s, false, false⟩) 44 []).2) 44 []).2) 44 []
  have w4 := ws_rest_subset
    (getline (ws (getline (ws (getline (ws ⟨s, false, false⟩) 44 []).2) 44 []).2) 44 []).2
  have g4 := getline_subset (ws (getline
    (ws (getline (ws (getline (ws ⟨s, false, false⟩) 44 []).2) 44 []).2) 44 []).2) 10 []
  have r1 : ∀ x ∈ (getline (ws ⟨s, false, false⟩) 44 []).2.rest, x ∈ s :=
    fun x hx => w1 x (g1.2 x hx)
  have r2 : ∀ x ∈ (getline (ws (getline (ws ⟨s, false, false⟩) 44 []).2) 44 []).2.rest, x ∈ s :=
    fun x hx => r1 x (w2 x (g2.2 x hx))
  have r3 : ∀ x ∈ (getline (ws (getline (ws (getline (ws ⟨s, false, false⟩) 44 []).2)
      44 []).2) 44 []).2.rest, x ∈ s :=
    fun x hx => r2 x (w3 x (g3.2 x hx))
  rcases h with h | h | h | h
  · rcases g1.1 b h with h' | h'
    · exact w1 b h'
    · simp at h'
  · rcases g2.1 b h with h' | h'
    · exact r1 b (w2 b h')
    · simp at h'
  · rcases g3.1 b h with h' | h'
    · exact r2 b (w3 b h')
    · simp at h'
  · rcases g4.1 b h with h' | h'
    · exact r3 b (w4 b h')
    · simp at h'

theorem cString_no_zero (d : List Byte) : 0 ∉ cString d := by
  intro h
  have := List.mem_takeWhile_imp h
  simp at this

/-- A contact that `readContact` returns has no zero byte in its payload. -/
theorem readContact_no_zero (mem : Uninit) (file : List Byte) (offset : Int) (r : Contact)
    (h : readContact mem file offset = .ok r) : 0 ∉ encode r := by
  unfold readContact at h
  simp only at h
  split at h
  · exact absurd h (by simp)
  · split at h
    · exact absurd h (by simp)
    · have e := Except.ok.inj h
      intro hz
      have hfield : 0 ∈ r.firstName ∨ 0 ∈ r.lastName ∨ 0 ∈ r.address ∨ 0 ∈ r.phoneNumber := by
        simp only [encode, List.mem_append, List.mem_singleton] at hz
        rcases hz with ((((((h1 | h1) | h1) | h1) | h1) | h1) | h1)
        · exact Or.inl h1
        · exact absurd h1 (by decide)
        · exact Or.inr (Or.inl h1)
        · exact absurd h1 (by decide)
        · exact Or.inr (Or.inr (Or.inl h1))
        · exact absurd h1 (by decide)
        · exact Or.inr (Or.inr (Or.inr h1))
      rw [← e] at hfield
      exact cString_no_zero _ (decode_subset _ 0 hfield)

/-- A contact with a zero byte is never the result of a lookup by phone number. -/
theorem searchByPhoneNumber_ne_of_zero (mem : Uninit) (ab : AddressBook) (q : List Byte)
    (c : Contact) (h : 0 ∈ encode c) : searchByPhoneNumber mem ab q ≠ .ok c := by
  intro e
  unfold searchByPhoneNumber at e
  simp only at e
  split at e
  · exact readContact_no_zero mem _ _ c e h
  · have := Except.ok.inj e
    rw [← this] at h
    exact absurd h (by decide)

theorem mem_zeroName (b : Byte) : b ∈ zeroName ↔ b = 97 ∨ b = 0 ∨ b = 98 := by
  unfold zeroName
  rw [List.mem_cons, List.mem_cons, List.mem_replicate]
  constructor
  · rintro (h | h | ⟨_, h⟩)
    · exact Or.inl h
    · exact Or.inr (Or.inl h)
    · exact Or.inr (Or.inr h)
  · rintro (h | h | h)
    · exact Or.inl h
    · exact Or.inr (Or.inl h)
    · exact Or.inr (Or.inr ⟨by decide, h⟩)

theorem length_zeroName : zeroName.length = 1102 := by
  unfold zeroName
  rw [List.length_cons, List.length_cons, List.length_replicate]

theorem encode_zeroContact_length : (encode zeroContact).length = 1108 := by
  rw [encode_length]
  have h1 : zeroContact.firstName = zeroName := rfl
  rw [h1, length_zeroName]
  rfl

theorem takeWhile_encode_zeroContact :
    (encode zeroContact).takeWhile (fun b => b != 0) = [97] := by
  have e : encode zeroContact
      = 97 :: 0 :: (List.replicate 1100 98 ++ [44] ++ [108] ++ [44] ++ [100] ++ [44] ++ [49]) := by
    simp only [encode, zeroContact, zeroName, List.cons_append, List.append_assoc]
  rw [e]
  rfl

/-- The lookup right after the add of a contact whose payload has at least `1024` bytes:
the record is in the file at once. -/
theorem searchByPhoneNumber_large (mem : Uninit) (ab : AddressBook) (c : Contact)
    (h : Healthy ab) (hb : 1024 ≤ (encode c).length) (hl : (encode c).length + 1 < 2 ^ 31) :
    searchByPhoneNumber mem (addContact ab c) c.phoneNumber
      = .ok (decode ((encode c).takeWhile (fun b => b != 0))) := by
  have hfile : (addContact ab c).storage.file = logOf ab ++ storedRecord c ++ [] := by
    rw [(addContact_storage ab c).1, (writeContact_small ab c h (by omega)).2.2.2.2.2 hb,
      List.append_nil]
  have hidx : searchInTrie (addContact ab c).phoneIndexRoot c.phoneNumber
      = ((logOf ab).length : Int) := by
    rw [addContact_phoneIndexRoot, searchInTrie_insertIntoTrie, if_pos rfl, h.2.2]
  exact searchByPhoneNumber_of_record mem _ _ (logOf ab) [] c hidx hfile hl

/-- C18: in a store opened on any file and extended by adds with payloads shorter than
`2^31` bytes, the add of a contact with a payload shorter than `2^31 - 1` bytes puts the
full length and the full payload, zero bytes included, into the log; `readContact` on a
file that holds the record decodes only the bytes of the payload before its first zero
byte, and that is what `searchByPhoneNumber` returns once the record is in the file (after
a later add of another phone number, after `close()`, or at once when the payload has
`1024` bytes or more); a contact with a zero byte is never returned by any lookup.  So for
`zeroContact`, whose fields have no comma, no newline and no leading white space, the
lookup right after the add returns the contact `("a", "", "", "")`, different from it. -/
theorem zero_byte_truncation (mem : Uninit) (disk : Option (List Byte))
    (cs later : List Contact) (c : Contact) (hcs : ∀ x ∈ cs, (encode x).length < 2 ^ 31)
    (hl : (encode c).length + 1 < 2 ^ 31)
    (hlater : ∀ x ∈ later, x.phoneNumber ≠ c.phoneNumber) :
    logOf (addContact (addAll (construct disk) cs) c)
      = logOf (addAll (construct disk) cs) ++ le32 ((encode c).length : Int) ++ encode c ∧
    (∀ pre extra : List Byte,
      readContact mem (pre ++ le32 ((encode c).length : Int) ++ encode c ++ extra)
        (pre.length : Int) = .ok (decode ((encode c).takeWhile (fun b => b != 0)))) ∧
    (later ≠ [] →
      searchByPhoneNumber mem (addAll (addContact (addAll (construct disk) cs) c) later)
        c.phoneNumber = .ok (decode ((encode c).takeWhile (fun b => b != 0)))) ∧
    searchByPhoneNumber mem (close (addAll (addContact (addAll (construct disk) cs) c) later))
      c.phoneNumber = .ok (decode ((encode c).takeWhile (fun b => b != 0))) ∧
    (1024 ≤ (encode c).length →
      searchByPhoneNumber mem (addContact (addAll (construct disk) cs) c) c.phoneNumber
        = .ok (decode ((encode c).takeWhile (fun b => b != 0)))) ∧
    (0 ∈ encode c → ∀ (ab : AddressBook) (q : List Byte),
      searchByPhoneNumber mem ab q ≠ .ok c) ∧
    ((44 ∉ zeroContact.firstName ∧ 44 ∉ zeroContact.lastName ∧ 44 ∉ zeroContact.address ∧
        44 ∉ zeroContact.phoneNumber) ∧
      (10 ∉ zeroContact.firstName ∧ 10 ∉ zeroContact.lastName ∧ 10 ∉ zeroContact.address ∧
        10 ∉ zeroContact.phoneNumber) ∧
      (startsWithSpace zeroContact.firstName = false ∧
        startsWithSpace zeroContact.lastName = false ∧
        startsWithSpace zeroContact.address = false ∧
        startsWithSpace zeroContact.phoneNumber = false) ∧
      0 ∈ zeroContact.firstName ∧
      logOf (addContact (addAll (construct disk) cs) zeroContact)
        = logOf (addAll (construct disk) cs) ++ le32 ((encode zeroContact).length : Int)
          ++ encode zeroContact ∧
      searchByPhoneNumber mem (addContact (addAll (construct disk) cs) zeroContact)
        zeroContact.phoneNumber = .ok ⟨[97], [], [], []⟩ ∧
      searchByPhoneNumber mem (addContact (addAll (construct disk) cs) zeroContact)
        zeroContact.phoneNumber ≠ .ok zeroContact) := by
  have hh := addAll_healthy _ cs (construct_healthy disk) hcs
  have hlog : ∀ x : Contact, (encode x).length + 1 < 2 ^ 31 →
      logOf (addContact (addAll (construct disk) cs) x)
        = logOf (addAll (construct disk) cs) ++ le32 ((encode x).length : Int) ++ encode x := by
    intro x hx
    rw [addContact_log, (writeContact_small _ x hh (by omega)).1]
    simp [storedRecord]
  have hread : ∀ pre extra : List Byte,
      readContact mem (pre ++ le32 ((encode c).length : Int) ++ encode c ++ extra)
        (pre.length : Int) = .ok (decode ((encode c).takeWhile (fun b => b != 0))) := by
    intro pre extra
    have := readContact_whole mem pre extra c hl
    simpa [storedRecord] using this
  have hadded := searchByPhoneNumber_added mem _ c later hh hl hlater
  have hzl : (encode zeroContact).length + 1 < 2 ^ 31 := by
    rw [encode_zeroContact_length]; decide
  have hz0 : 0 ∈ zeroContact.firstName := (mem_zeroName 0).mpr (Or.inr (Or.inl rfl))
  have hzs : searchByPhoneNumber mem (addContact (addAll (construct disk) cs) zeroContact)
      zeroContact.phoneNumber = .ok ⟨[97], [], [], []⟩ := by
    rw [searchByPhoneNumber_large mem _ zeroContact hh
      (by rw [encode_zeroContact_length]; decide) hzl, takeWhile_encode_zeroContact]
    rfl
  have hzenc : 0 ∈ encode zeroContact := by
    simp only [encode, List.mem_append]
    exact Or.inl (Or.inl (Or.inl (Or.inl (Or.inl (Or.inl hz0)))))
  refine ⟨hlog c hl, hread, hadded.2.1, hadded.2.2,
    fun hb => searchByPhoneNumber_large mem _ c hh hb hl,
    fun h0 ab q => searchByPhoneNumber_ne_of_zero mem ab q c h0,
    ⟨?_, by decide, by decide, by decide⟩, ⟨?_, by decide, by decide, by decide⟩,
    ⟨rfl, rfl, rfl, rfl⟩, hz0, hlog zeroContact hzl, hzs,
    searchByPhoneNumber_ne_of_zero mem _ _ zeroContact hzenc⟩
  · intro h
    rcases (mem_zeroName 44).mp h with h | h | h <;> exact absurd h (by decide)
  · intro h
    rcases (mem_zeroName 10).mp h with h | h | h <;> exact absurd h (by decide)

/-- Witness of `zero_byte_truncation`: a short contact with a zero byte, added after the
first contact of `main`, comes back as `("a", "", "", "")` after `close()`. -/
theorem zero_byte_truncation_witness :
    searchByPhoneNumber ⟨[], []⟩ (close (addAll (addContact (addAll (construct none)
      [⟨ascii "Avinash", ascii "test", ascii "Bengaluru", ascii "9676806379"⟩])
      ⟨[97, 0, 98], ascii "l", ascii "d", ascii "1"⟩) [])) (ascii "1")
      = .ok ⟨ascii "a", [], [], []⟩ :=
  ((zero_byte_truncation ⟨[], []⟩ none
    [⟨ascii "Avinash", ascii "test", ascii "Bengaluru", ascii "9676806379"⟩] []
    ⟨[97, 0, 98], ascii "l", ascii "d", ascii "1"⟩ (by decide) (by decide)
    (by decide)).2.2.2.1).trans (by decide)

/-! ## Consistency of the indexes with the log -/

theorem length_storedRecord (c : Contact) :
    (storedRecord c).length = 4 + (encode c).length := by
  simp [storedRecord, length_le32]

/-- One add keeps an index consistent: the new key points at the new record, and the
other keys at records that are still where they were. -/
theorem indexConsistent_step (key : Contact → List Byte) (start : Nat) (cs : List Contact)
    (root : TrieNode) (file : List Byte) (c : Contact)
    (h : IndexConsistent key start cs root file (file.length : Int))
    (hs : start ≤ file.length) :
    IndexConsistent key start (cs ++ [c]) (insertIntoTrie root (key c) (file.length : Int))
      (file ++ storedRecord c) ((file.length : Int) + 4 + ((encode c).length : Int)) := by
  intro k hk
  rw [searchInTrie_insertIntoTrie] at hk ⊢
  by_cases e : k = key c
  · rw [if_pos e]
    refine ⟨by omega, by omega, c, by simp, e.symm, file, [], by simp, rfl⟩
  · rw [if_neg e] at hk ⊢
    obtain ⟨h1, h2, c0, hc0, hkey, pre, post, hfile, hpre⟩ := h k hk
    refine ⟨h1, by omega, c0, by simp [hc0], hkey, pre, post ++ storedRecord c, ?_, hpre⟩
    rw [hfile]
    simp

theorem addAll_consistent (start : Nat) (done cs : List Contact) (ab : AddressBook)
    (hh : Healthy ab) (hs : start ≤ (logOf ab).length)
    (hp : IndexConsistent Contact.phoneNumber start done ab.phoneIndexRoot (logOf ab)
      ab.nextOffset)
    (hn : IndexConsistent nameKey start done ab.nameIndexRoot (logOf ab) ab.nextOffset)
    (hcs : ∀ x ∈ cs, (encode x).length < 2 ^ 31) :
    IndexConsistent Contact.phoneNumber start (done ++ cs) (addAll ab cs).phoneIndexRoot
        (logOf (addAll ab cs)) (addAll ab cs).nextOffset ∧
      IndexConsistent nameKey start (done ++ cs) (addAll ab cs).nameIndexRoot
        (logOf (addAll ab cs)) (addAll ab cs).nextOffset := by
  induction cs generalizing ab done with
  | nil => simpa [addAll_nil] using ⟨hp, hn⟩
  | cons c cs ih =>
    have hc := hcs c (by simp)
    have hw := writeContact_small ab c hh hc
    have hfile : logOf (addContact ab c) = logOf ab ++ storedRecord c := by
      rw [addContact_log, hw.1]
    have hnext : (addContact ab c).nextOffset
        = ((logOf ab).length : Int) + 4 + ((encode c).length : Int) := by
      rw [(addContact_storage ab c).2, hw.2.1, hh.2.2]
    have hp' : IndexConsistent Contact.phoneNumber start (done ++ [c])
        (addContact ab c).phoneIndexRoot (logOf (addContact ab c))
        (addContact ab c).nextOffset := by
      rw [addContact_phoneIndexRoot, hfile, hnext, hh.2.2]
      rw [hh.2.2] at hp
      exact indexConsistent_step Contact.phoneNumber start done _ _ c hp hs
    have hn' : IndexConsistent nameKey start (done ++ [c])
        (addContact ab c).nameIndexRoot (logOf (addContact ab c))
        (addContact ab c).nextOffset := by
      rw [addContact_nameIndexRoot, hfile, hnext, hh.2.2]
      rw [hh.2.2] at hn
      exact indexConsistent_step nameKey start done _ _ c hn hs
    have := ih (done ++ [c]) (addContact ab c) (addContact_healthy ab c hh hc)
      (by rw [hfile, List.length_append]; omega) hp' hn' (fun x hx => hcs x (by simp [hx]))
    rw [addAll_cons]
    simpa [List.append_assoc] using this

theorem indexConsistent_new (key : Contact → List Byte) (start : Nat) (file : List Byte)
    (next : Int) : IndexConsistent key start [] TrieNode.new file next := by
  intro k hk
  exact absurd (searchInTrie_new k) hk

/-- After adds on a healthy store, a key that held an offset `≥ 0` or that belongs to one
of the added contacts holds an offset `≥ 0`. -/
theorem addAll_hit (ab : AddressBook) (cs : List Contact) (hh : Healthy ab)
    (hcs : ∀ x ∈ cs, (encode x).length < 2 ^ 31) :
    (∀ k, (0 ≤ searchInTrie ab.phoneIndexRoot k ∨ ∃ x ∈ cs, x.phoneNumber = k) →
      0 ≤ searchInTrie (addAll ab cs).phoneIndexRoot k) ∧
    (∀ k, (0 ≤ searchInTrie ab.nameIndexRoot k ∨ ∃ x ∈ cs, nameKey x = k) →
      0 ≤ searchInTrie (addAll ab cs).nameIndexRoot k) := by
  induction cs generalizing ab with
  | nil =>
    refine ⟨fun k h => ?_, fun k h => ?_⟩ <;>
    · rcases h with h | ⟨x, hx, _⟩
      · exact h
      · simp at hx
  | cons c cs ih =>
    have hc := hcs c (by simp)
    have hnn : 0 ≤ ab.nextOffset := by rw [hh.2.2]; omega
    have := ih (addContact ab c) (addContact_healthy ab c hh hc)
      (fun x hx => hcs x (by simp [hx]))
    rw [addAll_cons]
    refine ⟨fun k h => this.1 k ?_, fun k h => this.2 k ?_⟩
    · rw [addContact_phoneIndexRoot, searchInTrie_insertIntoTrie]
      by_cases e : k = c.phoneNumber
      · exact Or.inl (by rw [if_pos e]; exact hnn)
      · rw [if_neg e]
        rcases h with h | ⟨x, hx, hk⟩
        · exact Or.inl h
        · rcases List.mem_cons.mp hx with rfl | hx
          · exact absurd hk.symm e
          · exact Or.inr ⟨x, hx, hk⟩
    · rw [addContact_nameIndexRoot, searchInTrie_insertIntoTrie]
      by_cases e : k = c.firstName ++ [32] ++ c.lastName
      · exact Or.inl (by rw [if_pos e]; exact hnn)
      · rw [if_neg e]
        rcases h with h | ⟨x, hx, hk⟩
        · exact Or.inl h
        · rcases List.mem_cons.mp hx with rfl | hx
          · exact absurd hk.symm e
          · exact Or.inr ⟨x, hx, hk⟩

theorem longContact_phoneNumber : longContact.phoneNumber = [] := rfl

/-- C17, as stated, fails: after the add of `longContact` to a fresh store the phone index
holds offset `0` under its key while `nextOffset` is `-1`, so the offset is not below
`nextOffset`, and the next add gets `-1` as its offset and stores it in the index. -/
theorem index_consistency_counterexample :
    searchInTrie (addAll (construct none) [longContact]).phoneIndexRoot longContact.phoneNumber
      = 0 ∧
    (addAll (construct none) [longContact]).nextOffset = -1 ∧
    (writeContact (addAll (construct none) [longContact])
      ⟨ascii "first", ascii "last", ascii "test address ", ascii "1234567890"⟩).1 = -1 ∧
    searchInTrie (addAll (construct none) [longContact,
      ⟨ascii "first", ascii "last", ascii "test address ", ascii "1234567890"⟩]).phoneIndexRoot
      (ascii "1234567890") = -1 := by
  have hneg : toInt32 (encode longContact).length < 0 := by
    rw [toInt32_longContact]; decide
  have hnext : (addAll (construct none) [longContact]).nextOffset = -1 := by
    rw [addAll_cons, addAll_nil, (addContact_storage _ _).2]
    exact (writeContact_overflow _ _ hneg).2
  have h0 : (construct none).nextOffset = 0 := by decide
  refine ⟨?_, hnext, ?_, ?_⟩
  · rw [addAll_cons, addAll_nil, addContact_phoneIndexRoot, searchInTrie_insertIntoTrie,
      if_pos rfl, h0]
  · rw [writeContact_fst, hnext]
  · have e : addAll (construct none) [longContact,
        ⟨ascii "first", ascii "last", ascii "test address ", ascii "1234567890"⟩]
        = addContact (addAll (construct none) [longContact])
          ⟨ascii "first", ascii "last", ascii "test address ", ascii "1234567890"⟩ := rfl
    rw [e, addContact_phoneIndexRoot, searchInTrie_insertIntoTrie, if_pos rfl, hnext]

/-- C17, amended: in a store opened on any file and extended by adds whose payloads are
shorter than `2^31` bytes, every offset other than `-1` found in the phone index, and
likewise in the name index, is at least the file length at open, below `nextOffset`, and
the start of the stored record of an added contact that has the key as its phoneNumber
(as `firstName + " " + lastName`), in the log, which is the file followed by the bytes that
the stream still buffers, and after `close()` in the file; before `close()` the file holds
these records for the keys that are not keys of the latest add; the offset returned by
the next add is not `-1`, and the keys of every added contact hold an offset that is not
`-1`. -/
theorem index_file_consistency (disk : Option (List Byte)) (cs : List Contact) (c : Contact)
    (hcs : ∀ x ∈ cs, (encode x).length < 2 ^ 31) :
    IndexConsistent Contact.phoneNumber (disk.getD []).length cs
      (addAll (construct disk) cs).phoneIndexRoot (logOf (addAll (construct disk) cs))
      (addAll (construct disk) cs).nextOffset ∧
    IndexConsistent nameKey (disk.getD []).length cs
      (addAll (construct disk) cs).nameIndexRoot (logOf (addAll (construct disk) cs))
      (addAll (construct disk) cs).nextOffset ∧
    IndexConsistent Contact.phoneNumber (disk.getD []).length cs
      (close (addAll (construct disk) cs)).phoneIndexRoot
      (close (addAll (construct disk) cs)).storage.file
      (close (addAll (construct disk) cs)).nextOffset ∧
    IndexConsistent nameKey (disk.getD []).length cs
      (close (addAll (construct disk) cs)).nameIndexRoot
      (close (addAll (construct disk) cs)).storage.file
      (close (addAll (construct disk) cs)).nextOffset ∧
    (∀ (init : List Contact) (last : Contact), cs = init ++ [last] →
      (∀ k, k ≠ last.phoneNumber →
        searchInTrie (addAll (construct disk) cs).phoneIndexRoot k ≠ -1 →
        ∃ x ∈ init, x.phoneNumber = k ∧ RecordAt (addAll (construct disk) cs).storage.file
          (searchInTrie (addAll (construct disk) cs).phoneIndexRoot k) x) ∧
      (∀ k, k ≠ nameKey last →
        searchInTrie (addAll (construct disk) cs).nameIndexRoot k ≠ -1 →
        ∃ x ∈ init, nameKey x = k ∧ RecordAt (addAll (construct disk) cs).storage.file
          (searchInTrie (addAll (construct disk) cs).nameIndexRoot k) x)) ∧
    (writeContact (addAll (construct disk) cs) c).1 ≠ -1 ∧
    (∀ x ∈ cs, searchInTrie (addAll (construct disk) cs).phoneIndexRoot x.phoneNumber ≠ -1 ∧
      searchInTrie (addAll (construct disk) cs).nameIndexRoot (nameKey x) ≠ -1) := by
  have hh := construct_healthy disk
  have hall : ∀ l : List Contact, (∀ x ∈ l, (encode x).length < 2 ^ 31) →
      IndexConsistent Contact.phoneNumber (disk.getD []).length l
        (addAll (construct disk) l).phoneIndexRoot (logOf (addAll (construct disk) l))
        (addAll (construct disk) l).nextOffset ∧
      IndexConsistent nameKey (disk.getD []).length l
        (addAll (construct disk) l).nameIndexRoot (logOf (addAll (construct disk) l))
        (addAll (construct disk) l).nextOffset := by
    intro l hl
    have := addAll_consistent (disk.getD []).length [] l (construct disk) hh
      (by rw [construct_log]) (indexConsistent_new _ _ _ _) (indexConsistent_new _ _ _ _) hl
    rw [List.nil_append] at this
    exact this
  have hcons := hall cs hcs
  have hh2 := addAll_healthy _ cs hh hcs
  have hit := addAll_hit (construct disk) cs hh hcs
  have hclose := (close_sound _ (sound_of_healthy _ hh2)).1
  refine ⟨hcons.1, hcons.2, ?_, ?_, ?_, ?_, fun x hx => ⟨?_, ?_⟩⟩
  · rw [hclose]; exact hcons.1
  · rw [hclose]; exact hcons.2
  · intro init last hsplit
    have hinit : ∀ x ∈ init, (encode x).length < 2 ^ 31 :=
      fun x hx => hcs x (by rw [hsplit]; simp [hx])
    have hlast : (encode last).length < 2 ^ 31 := hcs last (by rw [hsplit]; simp)
    have hci := hall init hinit
    have hhi := addAll_healthy _ init hh hinit
    obtain ⟨extra, hextra⟩ := (writeContact_small _ last hhi hlast).2.2.2.1
    have hst : addAll (construct disk) cs
        = addContact (addAll (construct disk) init) last := by
      rw [hsplit, addAll_append, addAll_cons, addAll_nil]
    have hfile : (addAll (construct disk) cs).storage.file
        = logOf (addAll (construct disk) init) ++ extra := by
      rw [hst, (addContact_storage _ _).1, hextra]
    refine ⟨fun k hk hv => ?_, fun k hk hv => ?_⟩
    · have e : searchInTrie (addAll (construct disk) cs).phoneIndexRoot k
          = searchInTrie (addAll (construct disk) init).phoneIndexRoot k := by
        rw [hst, addContact_phoneIndexRoot, searchInTrie_insertIntoTrie, if_neg hk]
      rw [e] at hv ⊢
      obtain ⟨_, _, x, hx, hkey, pre, post, hlog, hpre⟩ := hci.1 k hv
      refine ⟨x, hx, hkey, pre, post ++ extra, ?_, hpre⟩
      rw [hfile, hlog, List.append_assoc]
    · have e : searchInTrie (addAll (construct disk) cs).nameIndexRoot k
          = searchInTrie (addAll (construct disk) init).nameIndexRoot k := by
        rw [hst, addContact_nameIndexRoot, searchInTrie_insertIntoTrie]
        exact if_neg hk
      rw [e] at hv ⊢
      obtain ⟨_, _, x, hx, hkey, pre, post, hlog, hpre⟩ := hci.2 k hv
      refine ⟨x, hx, hkey, pre, post ++ extra, ?_, hpre⟩
      rw [hfile, hlog, List.append_assoc]
  · rw [writeContact_fst, hh2.2.2]
    omega
  · have := hit.1 x.phoneNumber (Or.inr ⟨x, hx, rfl⟩)
    omega
  · have := hit.2 (nameKey x) (Or.inr ⟨x, hx, rfl⟩)
    omega

/-- Witness of `index_file_consistency`: the two adds of `main` on a file of five bytes. -/
theorem index_file_consistency_witness :
    searchInTrie (addAll (construct (some [1, 2, 3, 4, 5]))
      [⟨ascii "Avinash", ascii "test", ascii "Bengaluru", ascii "9676806379"⟩,
        ⟨ascii "first", ascii "last", ascii "test address ", ascii "1234567890"⟩]).phoneIndexRoot
      (ascii "1234567890") ≠ -1 ∧
    ((5 : Nat) : Int) ≤ searchInTrie (addAll (construct (some [1, 2, 3, 4, 5]))
      [⟨ascii "Avinash", ascii "test", ascii "Bengaluru", ascii "9676806379"⟩,
        ⟨ascii "first", ascii "last", ascii "test address ", ascii "1234567890"⟩]).phoneIndexRoot
      (ascii "1234567890") :=
  ⟨by decide,
    ((index_file_consistency (some [1, 2, 3, 4, 5])
      [⟨ascii "Avinash", ascii "test", ascii "Bengaluru", ascii "9676806379"⟩,
        ⟨ascii "first", ascii "last", ascii "test address ", ascii "1234567890"⟩]
      ⟨ascii "x", ascii "y", ascii "z", ascii "1"⟩ (by decide)).1
      (ascii "1234567890") (by decide)).1⟩

end AddressContactBook
